import Mathlib

/-!
Verification development for the `lrparser` Go library (phomola/lrparser).

The library compiles context-free rules into an LR(0) shift/reduce automaton
(`Grammar.BuildItems` in `lrparser.go`), drives the tables over a token stream
(`Grammar.Parse`), and offers rule expanders (`BuildOperatorRules`,
`CoalesceSymbols`, ... in `operators.go`).

This file is a shallow embedding of those functions.  Go strings are modelled
as `List Char` (byte strings of the source are ASCII throughout the library),
Go maps used as dictionaries are modelled as association lists whose lookup
returns the most recent binding (Go's insert-overwrite semantics), and the two
worklist loops (`closeItems`, the state worklist of `BuildItems`) are given a
fuel parameter: the Go loops terminate because the state space is finite, and
every theorem below either holds for all fuel values or is evaluated at a
concrete, sufficient fuel.
-/

set_option maxHeartbeats 4000000

namespace LRSpec

/-- Go strings, modelled as their character lists. -/
abbrev Str := List Char

/-- Literal helper: a Lean string literal viewed as a Go string. -/
def strOf (s : String) : Str := s.toList

/-- `textkit.Token.Type` values used by the parser (`lrparser.go`, `Parse`). -/
inductive TokType where
  | word | symbol | number | str | eol | eof
deriving DecidableEq, Repr

/-- `textkit.Token`: kind, lexeme (`Form`), source location (`Loc`, kept
abstract as its `%s` rendering) and `Tag`. -/
structure Token where
  type : TokType
  form : Str
  loc : Str
  tag : Str := []
deriving DecidableEq, Repr

/-- `lrparser.Rule`: a context-free rule with a builder function
(`lrparser.go` lines 17-21).  Semantic values (`interface\x7b\x7d` in Go) are a
type parameter `α`. -/
structure Rule (α : Type) where
  lhs : Str
  rhs : List Str
  conv : List α → α

/-- `lrparser.Item`: an LR(0) item (`lrparser.go` lines 29-33). -/
structure Item where
  lhs : Str
  rhs : List Str
  dotPos : Nat
deriving DecidableEq, Repr

/-- The `" ->"` part and per-element rendering of `Item.String`
(`lrparser.go` lines 35-48): each element is preceded by a space, with a `*`
glued in front of the element at the dot position. -/
def dotRhs (dot : Nat) : Nat → List Str → Str
  | _, [] => []
  | i, el :: rest =>
    [' '] ++ (if dot = i then ['*'] else []) ++ el ++ dotRhs dot (i + 1) rest

/-- `Item.String` (`lrparser.go` lines 35-48): `LHS ->` then the dotted RHS,
a trailing `*` when the dot sits at the end, and a final `;`. -/
def itemString (it : Item) : Str :=
  it.lhs ++ strOf " ->" ++ dotRhs it.dotPos 0 it.rhs
    ++ (if it.dotPos = it.rhs.length then ['*'] else []) ++ [';']

/-- Lexicographic (byte-wise) string order, as Go's `<` on strings. -/
def lexLe : Str → Str → Bool
  | [], _ => true
  | _ :: _, [] => false
  | a :: as, b :: bs => if a = b then lexLe as bs else decide (a < b)

/-- Insertion step of the canonical sort used for state keys. -/
def insertLe (x : Str) : List Str → List Str
  | [] => [x]
  | y :: ys => if lexLe x y then x :: y :: ys else y :: insertLe x ys

/-- Sorting of item strings, as `sort.Slice` inside `State.String`
(`lrparser.go` line 56).  Any sorting algorithm yields the same canonical key;
insertion sort is used here. -/
def sortStrs (l : List Str) : List Str := l.foldr insertLe []

/-- `strings.Join(keys, sep)`. -/
def joinSep (sep : Str) : List Str → Str
  | [] => []
  | [x] => x
  | x :: y :: xs => x ++ sep ++ joinSep sep (y :: xs)

/-- `State.String` (`lrparser.go` lines 55-62): item strings sorted and joined
by single spaces; the canonical key that identifies a state. -/
def stateString (items : List Item) : Str :=
  joinSep [' '] (sortStrs (items.map itemString))

/-- Parser actions (`lrparser.go` lines 68-82).  `gotoAction` lives in the
separate GOTO table, which stores the target state key directly. -/
inductive PAct where
  | shift (state : Str)
  | reduce (rule : Nat)
  | accept
deriving DecidableEq, Repr

/-- Association-list lookup; the most recent binding wins, matching Go map
insert-overwrite semantics with insertion at the front. -/
def lookupTbl {β : Type} (tbl : List ((Str × Str) × β)) (k : Str × Str) : Option β :=
  (tbl.find? (fun e => e.1 == k)).map (·.2)

/-- First-occurrence deduplication of a string list (the column set of a Go
map has no duplicate keys). -/
def dedupStr (l : List Str) : List Str :=
  l.foldl (fun acc x => if acc.contains x then acc else acc ++ [x]) []

/-- Add an item to a set of items, deduplicating by canonical item string as
the `m` map of `closeItems` does (`lrparser.go` lines 174-199). -/
def addItem (m : List Item) (it : Item) : List Item :=
  if m.any (fun x => itemString x == itemString it) then m else m ++ [it]

/-- One parallel round of LR(0) closure: for every item with symbol `symb`
after the dot, add the fresh item `rule.LHS -> . rule.RHS` of every rule
producing `symb` (`lrparser.go` lines 179-194). -/
def closeStep {α : Type} (rules : List (Rule α)) (m : List Item) : List Item :=
  m.foldl
    (fun acc it =>
      match it.rhs.get? it.dotPos with
      | none => acc
      | some symb =>
        rules.foldl
          (fun acc2 r =>
            if r.lhs == symb then addItem acc2 ⟨r.lhs, r.rhs, 0⟩ else acc2)
          acc)
    m

/-- `Grammar.closeItems` (`lrparser.go` lines 174-199): the least fixpoint of
`closeStep` over the initial item set.  Each productive round adds at least
one dot-0 rule item and there are at most `rules.length` of those, so
`rules.length + 1` rounds reach the fixpoint the Go worklist computes.  The
Go function returns the items in map order; downstream consumers only use the
item set (canonical keys, membership tests), so list order is normalized to
insertion order here. -/
def closeItems {α : Type} (rules : List (Rule α)) (items : List Item) : List Item :=
  (closeStep rules)^[rules.length + 1] (items.foldl addItem [])

/-- Terminal test on a symbol: first character `_` or `&` (`lrparser.go`
line 131).  Go indexes `symb[0]` and would panic on an empty symbol; the
degenerate empty symbol is routed to GOTO here and the theorems about
real grammars assume nonempty symbols. -/
def isTermSym (s : Str) : Bool :=
  match s with
  | [] => false
  | c :: _ => c == '_' || c == '&'

/-- The symbols occurring immediately after a dot in a state, deduplicated
(the `tr` set, `lrparser.go` lines 116-121). -/
def transSyms (st : List Item) : List Str :=
  dedupStr (st.filterMap (fun it => it.rhs.get? it.dotPos))

/-- The items of `st` with `symb` after the dot, dots advanced
(`lrparser.go` lines 123-128). -/
def advance (st : List Item) (symb : Str) : List Item :=
  st.filterMap
    (fun it =>
      match it.rhs.get? it.dotPos with
      | some s => if s == symb then some ⟨it.lhs, it.rhs, it.dotPos + 1⟩ else none
      | none => none)

/-- The tables built by `BuildItems`: deduplicated states (key and item set,
in discovery order), the initial state key, ACTION and GOTO. -/
structure Tables where
  statesL : List (Str × List Item)
  initKey : Str
  act : List ((Str × Str) × PAct)
  gotoT : List ((Str × Str) × Str)
deriving DecidableEq, Repr, Inhabited

/-- Goto-graph construction state: tables so far plus the worklist of states
(the `states` slice of `BuildItems`). -/
structure B1 where
  tbl : Tables
  queue : List (List Item)

/-- Whether a state key is already present in `gr.states`. -/
def hasState (b : B1) (k : Str) : Bool := b.tbl.statesL.any (fun e => e.1 == k)

/-- The accept column. -/
def eofSym : Str := strOf "_EOF"

/-- Processing of one outgoing transition of a dequeued state
(`lrparser.go` lines 122-144): build the successor state, record a Shift or a
GOTO according to the symbol prefix, and on first discovery of the successor
check for the accepting item and enqueue it. -/
def procSym {α : Type} (rules : List (Rule α)) (accStr : Str) (stKey : Str)
    (st : List Item) (b : B1) (symb : Str) : B1 :=
  let items := closeItems rules (advance st symb)
  let k2 := stateString items
  let b :=
    if isTermSym symb then
      { b with tbl := { b.tbl with act := ((stKey, symb), PAct.shift k2) :: b.tbl.act } }
    else
      { b with tbl := { b.tbl with gotoT := ((stKey, symb), k2) :: b.tbl.gotoT } }
  if hasState b k2 then b
  else
    let b :=
      if items.any (fun it => itemString it == accStr) then
        { b with tbl := { b.tbl with act := ((k2, eofSym), PAct.accept) :: b.tbl.act } }
      else b
    { b with queue := b.queue ++ [items] }

/-- Processing of one dequeued state (`lrparser.go` lines 111-145): skip it
when already present in `gr.states`, otherwise record it and handle each
outgoing symbol.  Go iterates the `tr` map in random order; the final tables
are insensitive to that order (distinct symbols write distinct keys), so the
deterministic first-occurrence order of `transSyms` is used. -/
def procState {α : Type} (rules : List (Rule α)) (accStr : Str) (b : B1)
    (st : List Item) : B1 :=
  let k := stateString st
  if hasState b k then b
  else
    let b := { b with tbl := { b.tbl with statesL := b.tbl.statesL ++ [(k, st)] } }
    (transSyms st).foldl (procSym rules accStr k st) b

/-- The fueled worklist loop of `BuildItems` (`lrparser.go` lines 111-146). -/
def buildLoop {α : Type} (rules : List (Rule α)) (accStr : Str) :
    Nat → B1 → B1
  | 0, b => b
  | n + 1, b =>
    match b.queue with
    | [] => b
    | st :: rest =>
      buildLoop rules accStr n (procState rules accStr { b with queue := rest } st)

/-- Goto-graph phase of `BuildItems` (`lrparser.go` lines 101-146): seed the
worklist with the closure of the start rule's dot-0 item, record the initial
key, and run the loop.  Go panics on an empty rule list (`gr.Rules[0]`); the
empty case returns empty tables and no theorem relies on it. -/
def phase1 {α : Type} (fuel : Nat) (rules : List (Rule α)) : B1 :=
  match rules with
  | [] => ⟨⟨[], [], [], []⟩, []⟩
  | r0 :: _ =>
    let items0 := closeItems rules [⟨r0.lhs, r0.rhs, 0⟩]
    let accStr := itemString ⟨r0.lhs, r0.rhs, r0.rhs.length⟩
    buildLoop rules accStr fuel ⟨⟨[], stateString items0, [], []⟩, [items0]⟩

/-- Fold over a list that can fail, modelling loops whose body can `panic`:
the first failure aborts the whole computation, as a Go panic aborts
`BuildItems`. -/
def exceptFold {β γ : Type} (f : β → γ → Except Str β) : β → List γ → Except Str β
  | b, [] => .ok b
  | b, x :: xs =>
    match f b x with
    | .ok b2 => exceptFold f b2 xs
    | .error e => .error e

/-- The seen-terminal set: every column that has an ACTION entry
(`lrparser.go` lines 147-150).  Deduplicated, since Go collects the columns
as map keys. -/
def termsOf (act : List ((Str × Str) × PAct)) : List Str :=
  dedupStr (act.map (fun e => e.1.2))

/-- The conflict message of the reduce-population panic (`lrparser.go`
line 160).  Go formats the previous action with `%T %s`; the exact rendering
of a Go value is not modelled and no claim depends on it. -/
def conflictMsg (t : Str) : Str := strOf "conflict: " ++ t

/-- Canonical string of the completed item of a rule. -/
def completedStr {α : Type} (r : Rule α) : Str :=
  itemString ⟨r.lhs, r.rhs, r.rhs.length⟩

/-- One reduce-cell write (`lrparser.go` lines 157-165): keep a pre-existing
Shift, fail fatally on any other pre-existing action, write `Reduce i` into an
empty cell. -/
def fillCell (stKey t : Str) (i : Nat)
    (tbl : List ((Str × Str) × PAct)) : Except Str (List ((Str × Str) × PAct)) :=
  match lookupTbl tbl (stKey, t) with
  | some (PAct.shift _) => .ok tbl
  | some _ => .error (conflictMsg t)
  | none => .ok (((stKey, t), PAct.reduce i) :: tbl)

/-- Whether the state `st` contains the completed item of rule index `i`
(string comparison of canonical item forms, `lrparser.go` lines 154-156). -/
def completesAt {α : Type} (rules : List (Rule α)) (i : Nat) (st : List Item) : Bool :=
  match rules.get? i with
  | none => false
  | some r => st.any (fun it2 => itemString it2 == completedStr r)

/-- Reduce population for one state and one rule index (`lrparser.go`
lines 152-168): rule index 0 is skipped; if the state contains the rule's
completed item, every seen terminal cell is filled. -/
def fillRule {α : Type} (rules : List (Rule α)) (terminals : List Str) (stKey : Str)
    (st : List Item) (tbl : List ((Str × Str) × PAct)) (i : Nat) :
    Except Str (List ((Str × Str) × PAct)) :=
  if i = 0 then .ok tbl
  else if completesAt rules i st then
    exceptFold (fun tb t => fillCell stKey t i tb) tbl terminals
  else .ok tbl

/-- Reduce population over all states and rules (`lrparser.go`
lines 151-170).  Go iterates `gr.states` in random map order; conflicts are
intra-state (cells are keyed by the state) so the outcome is order-independent
and discovery order is used. -/
def reduceFill {α : Type} (rules : List (Rule α)) (statesL : List (Str × List Item))
    (terminals : List Str) (tbl : List ((Str × Str) × PAct)) :
    Except Str (List ((Str × Str) × PAct)) :=
  exceptFold
    (fun tb st =>
      exceptFold (fillRule rules terminals st.1 st.2) tb (List.range rules.length))
    tbl statesL

/-- `Grammar.BuildItems` (`lrparser.go` lines 101-172): goto-graph phase then
reduce population.  The Go panic on a reduce/reduce conflict is the `.error`
outcome. -/
def buildTables {α : Type} (fuel : Nat) (rules : List (Rule α)) : Except Str Tables :=
  let b := phase1 fuel rules
  let terminals := termsOf b.tbl.act
  (reduceFill rules b.tbl.statesL terminals b.tbl.act).map
    (fun act2 => { b.tbl with act := act2 })

/-! ### The parse engine (`Grammar.Parse`, `lrparser.go` lines 202-323) -/

/-- One step of the keyword-set collection: a column whose first character is
`&` contributes its remainder (`key.column[1:]`), once. -/
def kwStep (acc : List Str) (c : Str) : List Str :=
  match c with
  | '&' :: rest => if acc.contains rest then acc else acc ++ [rest]
  | _ => acc

/-- The keyword set: the ACTION columns whose first character is `&`, with the
`&` stripped (`lrparser.go` lines 207-212).  Deduplicated set, as Go builds a
map. -/
def keywordsOf (act : List ((Str × Str) × PAct)) : List Str :=
  (act.map (fun e => e.1.2)).foldl kwStep []

/-- Token classification (`lrparser.go` lines 217-235): symbols and matching
words become `&`-prefixed literal terminals, the other kinds their reserved
class. -/
def classify (keywords : List Str) (t : Token) : Str :=
  match t.type with
  | .symbol => '&' :: t.form
  | .number => strOf "_NUM"
  | .str => strOf "_STR"
  | .eof => strOf "_EOF"
  | .eol => strOf "_EOL"
  | .word => if keywords.contains t.form then '&' :: t.form else strOf "_ID"

/-- The single-quote character, used by the expected-symbol rendering. -/
def sq : Char := Char.ofNat 39

/-- Rendering of one expected terminal column (`lrparser.go` lines 286-304):
`&X` in single quotes, the five reserved classes by name, anything else raw.
The Go code applies the rewrites in sequence; the conditions are mutually
exclusive, so the if-chain is equivalent. -/
def renderTerm (t : Str) : Str :=
  match t with
  | '&' :: rest => sq :: rest ++ [sq]
  | _ =>
    if t == strOf "_ID" then strOf "identifier"
    else if t == strOf "_STR" then strOf "string"
    else if t == strOf "_NUM" then strOf "number"
    else if t == strOf "_EOF" then strOf "EOF"
    else if t == strOf "_EOL" then strOf "EOL"
    else t

/-- The error message of the missing-entry branch (`lrparser.go`
lines 308-314), over the already rendered expected list. -/
def errMsg (expected : List Str) (loc : Str) : Str :=
  if expected.length > 1 then
    strOf "expected one of " ++ joinSep (strOf ", ") expected ++ strOf " at line " ++ loc
  else if expected.length > 0 then
    strOf "expected " ++ expected.headD [] ++ strOf " at line " ++ loc
  else strOf "no expected symbol"

/-- The expected-symbol diagnostic (`lrparser.go` lines 282-314): the ACTION
columns defined at the current state, rendered and assembled.  Go iterates
the `terminals` map in random order and the claimed message shapes do not
depend on the order; the deterministic column order of `termsOf` is used. -/
def expectedMsg (act : List ((Str × Str) × PAct)) (terminals : List Str)
    (cur : Str) (loc : Str) : Str :=
  errMsg
    ((terminals.filter (fun t => (lookupTbl act (cur, t)).isSome)).map renderTerm)
    loc

/-- A configuration of the parse loop: remaining input and the two stacks.
Stacks grow at the end of the list, exactly as the Go slices do, so
`resultStack[0]` is the head of `resultStack`. -/
structure ParseConfig (α : Type) where
  tokens : List Token
  stateStack : List Str
  resultStack : List α

/-- Outcome of one iteration of the parse loop. -/
inductive StepOut (α : Type) where
  | next (c : ParseConfig α)
  | accepted (c : ParseConfig α) (v : α)
  | failed (msg : Str)
  | panicked (msg : Str)

/-- The distinguished message of the front-token read `tokens[0]`
(`lrparser.go` line 216), which panics in Go when the input is exhausted. -/
def tokOutMsg : Str := strOf "token index out of range"

/-- One iteration of the parse loop (`lrparser.go` lines 215-321).
Reading the front token of an empty input, the out-of-range slice bounds of a
reduce on short stacks, a missing GOTO entry (`panic("can't reduce")`) and
`resultStack[0]` on an empty stack are the Go runtime/explicit panics, kept
apart from ordinary error returns.  The decorative `Located` stamping of a
fold result (`lrparser.go` lines 250-271) mutates the returned value in place
and never changes which value is pushed; it is value-internal and omitted. -/
def parseStep {α : Type} (rules : List (Rule α)) (tb : Tables) (inj : Token → α)
    (keywords terminals : List Str) (c : ParseConfig α) : StepOut α :=
  match c.tokens with
  | [] => .panicked tokOutMsg
  | tok :: restTk =>
    let symb := classify keywords tok
    match c.stateStack.getLast? with
    | none => .panicked (strOf "state stack empty")
    | some cur =>
      match lookupTbl tb.act (cur, symb) with
      | some (PAct.shift s2) =>
        .next ⟨restTk, c.stateStack ++ [s2], c.resultStack ++ [inj tok]⟩
      | some (PAct.reduce i) =>
        match rules.get? i with
        | none => .panicked (strOf "rule index out of range")
        | some rule =>
          let k := rule.rhs.length
          if k ≤ c.resultStack.length ∧ k + 1 ≤ c.stateStack.length then
            let args := c.resultStack.drop (c.resultStack.length - k)
            let resPop := c.resultStack.take (c.resultStack.length - k)
            let stPop := c.stateStack.take (c.stateStack.length - k)
            let v := rule.conv args
            match stPop.getLast? with
            | none => .panicked (strOf "state stack empty")
            | some topSt =>
              match lookupTbl tb.gotoT (topSt, rule.lhs) with
              | some ns => .next ⟨c.tokens, stPop ++ [ns], resPop ++ [v]⟩
              | none => .panicked (strOf "cannot reduce")
          else .panicked (strOf "slice bounds out of range")
      | some PAct.accept =>
        match c.resultStack with
        | [] => .panicked (strOf "result index out of range")
        | v :: _ => .accepted c v
      | none => .failed (expectedMsg tb.act terminals cur tok.loc)

/-- Outcome of a fueled run of the parse loop.  `done` keeps the
configuration at the moment Accept fired. -/
inductive RunOut (α : Type) where
  | done (c : ParseConfig α) (v : α)
  | failed (msg : Str)
  | panicked (msg : Str)
  | fuelOut (c : ParseConfig α)

/-- The fueled parse loop. -/
def parseRun {α : Type} (rules : List (Rule α)) (tb : Tables) (inj : Token → α)
    (keywords terminals : List Str) : Nat → ParseConfig α → RunOut α
  | 0, c => .fuelOut c
  | n + 1, c =>
    match parseStep rules tb inj keywords terminals c with
    | .next c2 => parseRun rules tb inj keywords terminals n c2
    | .accepted c2 v => .done c2 v
    | .failed m => .failed m
    | .panicked m => .panicked m

/-- Final outcome of `Parse`: the Go `(interface\x7b\x7d, error)` pair, with
panics and fuel exhaustion kept apart. -/
inductive PResult (α : Type) where
  | ok (v : α)
  | err (msg : Str)
  | panicked (msg : Str)
  | fuelOut

/-- `Grammar.Parse` (`lrparser.go` lines 202-323): derive the terminal and
keyword sets from ACTION once, start from `[initialState]` and empty result
stack, and run the loop.  On Accept, Go returns `resultStack[0]` and a nil
error: the `.ok` outcome. -/
def parse {α : Type} (rules : List (Rule α)) (tb : Tables) (inj : Token → α)
    (fuel : Nat) (tokens : List Token) : PResult α :=
  let terminals := termsOf tb.act
  let keywords := keywordsOf tb.act
  match parseRun rules tb inj keywords terminals fuel ⟨tokens, [tb.initKey], []⟩ with
  | .done _ v => .ok v
  | .failed m => .err m
  | .panicked m => .panicked m
  | .fuelOut _ => .fuelOut

/-! ### `CoalesceSymbols` (`operators.go`) -/

/-- The per-token check of the fusing loop (`operators.go`): the token is a
Symbol or Word whose whole form is the single cluster character. -/
def pairOk (t2 : Token) (ch : Char) : Bool :=
  (t2.type == TokType.symbol || t2.type == TokType.word) && t2.form == [ch]

/-- The inner `for j := 1; j < len(c)` loop of `CoalesceSymbols`: the tokens
after the start, checked against the cluster characters after the first; Go
breaks at the first mismatch. -/
def restMatches : List Token → List Char → Bool
  | _, [] => true
  | [], _ :: _ => false
  | t :: ts, ch :: cs => pairOk t ch && restMatches ts cs

/-- Whether a cluster fuses at the current position (`CoalesceSymbols`): the
guard `len(c) <= len(tokens)-i`, and the inner loop reaching `j+1 == len(c)`.
A cluster of length 0 or 1 never fuses — the inner loop body never runs, so
`j+1 == len(c)` is never reached. -/
def matchesCluster (ts : List Token) (c : Str) : Bool :=
  match c with
  | [] => false
  | [_] => false
  | _ :: ctail => decide (c.length ≤ ts.length) && restMatches (ts.drop 1) ctail

/-- `CoalesceSymbols` (`operators.go`): walk the tokens; at a Symbol token,
look up the clusters grouped by first character (the map `m`, keyed by
`c[:1]`, preserves list order within a group — modelled by the filter), take
the first that fully matches, emit the fused Symbol token carrying the
cluster as lexeme and the start token's location, and skip the fused run
(`i += len(c) - 1`); otherwise copy the token.  Go builds `m` with `c[:1]`
and panics on an empty cluster; theorems assume nonempty clusters. -/
def coalesceSymbols (clusters : List Str) : List Token → List Token
  | [] => []
  | t :: rest =>
    if t.type == TokType.symbol then
      match (clusters.filter (fun c => c.take 1 == t.form)).find?
          (matchesCluster (t :: rest)) with
      | some c =>
        Token.mk TokType.symbol c t.loc [] ::
          coalesceSymbols clusters (rest.drop (c.length - 1))
      | none => t :: coalesceSymbols clusters rest
    else t :: coalesceSymbols clusters rest
termination_by ts => ts.length
decreasing_by
  · simp only [List.length_drop, List.length_cons]
    omega
  · simp
  · simp

/-- Claim-side description of a fused run (from the spec's words): the next
`c.length` tokens are adjacent single-character Symbol or Word tokens whose
forms spell the cluster's characters. -/
def specRunOk (ts : List Token) (c : Str) : Bool :=
  decide (2 ≤ c.length) && decide (c.length ≤ ts.length) &&
    ((ts.take c.length).zip c).all (fun p => pairOk p.1 p.2)

/-- Claim-side description of `CoalesceSymbols` (from the spec's words, for
the refinement theorem of the coalescing claim): at a Symbol token, the first
cluster in list order whose full run matches is fused into a single Symbol
token whose lexeme is the cluster and whose location is the first fused
token's; tokens not starting a match are copied unchanged. -/
def coalesceSpec (clusters : List Str) : List Token → List Token
  | [] => []
  | t :: rest =>
    if t.type == TokType.symbol then
      match clusters.find? (specRunOk (t :: rest)) with
      | some c =>
        Token.mk TokType.symbol c t.loc [] ::
          coalesceSpec clusters (rest.drop (c.length - 1))
      | none => t :: coalesceSpec clusters rest
    else t :: coalesceSpec clusters rest
termination_by ts => ts.length
decreasing_by
  · simp only [List.length_drop, List.length_cons]
    omega
  · simp
  · simp

/-! ### `BuildOperatorRules` (`operators.go`) -/

/-- `OperatorAssociativity` (`operators.go`). -/
inductive Assoc where
  | left | right | nonassoc
deriving DecidableEq, Repr, Inhabited

/-- `Operator` (`operators.go`): associativity, priority and symbol list. -/
structure Operator where
  assoc : Assoc
  priority : Int
  symbols : List Str
deriving DecidableEq, Repr, Inhabited

/-- `Operator.Name` (`operators.go`): the concatenation of the operator's
symbols, each stripped of its first byte (`sym[1:]`, the `&` prefix). -/
def opName (op : Operator) : Str :=
  op.symbols.foldl (fun acc s => acc ++ s.drop 1) []

/-- Decimal digits of a natural number. -/
def natToStr (n : Nat) : Str := Nat.toDigits 10 n

/-- `fmt.Sprintf("%d", i)` for a Go int. -/
def intToStr (i : Int) : Str :=
  if i < 0 then '-' :: natToStr i.natAbs else natToStr i.natAbs

/-- The auxiliary nonterminal of one priority level:
`fmt.Sprintf("%sOp%d", root, prio)`. -/
def levelSym (root : Str) (p : Int) : Str := root ++ strOf "Op" ++ intToStr p

/-- The `sort.Slice(prios, func(i, j int) bool \x7b return i < j \x7d)` call of
`BuildOperatorRules`: the comparator compares the two slice *indices* `i` and
`j`, never the priorities `prios[i]` and `prios[j]`.  Under that comparator
the slice reports as already ordered, so the sort rearranges nothing: the
priorities stay in the map-iteration order they were collected in. -/
def sortSliceByIdx (l : List Int) : List Int := l

/-- The distinct priorities of the operator list, in first-occurrence order
(the key set of the Go map `opMap`). -/
def prioKeys (ops : List Operator) : List Int :=
  (ops.map (·.priority)).foldl
    (fun acc x => if acc.contains x then acc else acc ++ [x]) []

/-- `opMap[p]`: the operators of priority `p`, in input order. -/
def opsAt (ops : List Operator) (p : Int) : List Operator :=
  ops.filter (fun o => o.priority == p)

/-- The rules of one priority level (`operators.go`, the inner
`for _, op := range opMap[prio]` loop).  The module predates Go 1.22's
per-iteration loop variables: a single variable `op` is declared per
execution of the loop statement and shared by every closure the loop creates,
so when `Parse` later invokes a binary fold, `op` holds the *last* operator of
the priority group — modelled by `opShared`.  `r[0]` and `r[len(r)-1]` are the
head and last argument. -/
def groupRules {α : Type} [Inhabited α] (builder : Str → α → α → α)
    (sym1 sym2 : Str) (g : List Operator) : List (Rule α) :=
  let opShared := g.getLastD default
  g.foldl
    (fun acc op =>
      acc ++
        [⟨sym1,
          (if op.assoc == Assoc.left then [sym1] else [sym2]) ++ op.symbols ++
            (if op.assoc == Assoc.right then [sym1] else [sym2]),
          fun r => builder (opName opShared) (r.headD default) (r.getLastD default)⟩,
         ⟨sym1, [sym2], fun r => r.headD default⟩])
    []

/-- The `for i, prio := range prios` loop of `BuildOperatorRules`: each level
links `rootOp\x7bprio\x7d` to the next level's nonterminal, or to `leaf` at
the last level (`i+1 == len(prios)`). -/
def levelRules {α : Type} [Inhabited α] (builder : Str → α → α → α)
    (root leaf : Str) (ops : List Operator) : List Int → List (Rule α)
  | [] => []
  | p :: rest =>
    let sym1 := levelSym root p
    let sym2 := match rest with | [] => leaf | q :: _ => levelSym root q
    groupRules builder sym1 sym2 (opsAt ops p) ++ levelRules builder root leaf ops rest

/-- `BuildOperatorRules` (`operators.go`).  `prioIter` models the randomized
Go map iteration over `opMap`'s keys: a faithful instantiation is any
permutation of `prioKeys ops`, and the (index-comparing, hence inert)
`sort.Slice` call leaves it as it is.  The first rule threads `root` to the
first level of that order; Go panics on an empty priority list
(`prios[0]`), the empty case returns no rules. -/
def buildOperatorRules {α : Type} [Inhabited α] (root leaf : Str)
    (ops : List Operator) (builder : Str → α → α → α) (prioIter : List Int) :
    List (Rule α) :=
  match sortSliceByIdx prioIter with
  | [] => []
  | p0 :: _ =>
    ⟨root, [levelSym root p0], fun r => r.headD default⟩ ::
      levelRules builder root leaf ops (sortSliceByIdx prioIter)

/-! ### Helper predicates and concrete instances used by the theorems -/

/-- Whether an action is a Shift. -/
def isShiftA : PAct → Bool
  | PAct.shift _ => true
  | _ => false

/-- Extract the tables of a successful construction (used to name concrete
table values; the accompanying equations are proved by `rfl`). -/
def okOr (e : Except Str Tables) : Tables :=
  match e with
  | .ok t => t
  | .error _ => default

/-- A trivial semantic fold over unit values. -/
def uconv : List Unit → Unit := fun _ => ()

/-- The grammar `Init -> _ID`. -/
def rules6 : List (Rule Unit) := [⟨strOf "Init", [strOf "_ID"], uconv⟩]

/-- Its tables. -/
def tb6 : Tables := okOr (buildTables 20 rules6)

/-- Its initial item set. -/
def s0items6 : List Item := closeItems rules6 [⟨strOf "Init", [strOf "_ID"], 0⟩]

/-- A number token, which the grammar `Init -> _ID` does not expect. -/
def tok3 : Token := ⟨TokType.number, strOf "7", strOf "5:2", []⟩

/-- The initial configuration of a parse of `rules6` facing `tok3`. -/
def cfg3 : ParseConfig Unit := ⟨[tok3], [tb6.initKey], []⟩

/-- The grammar `Init -> _ID _ID`, whose start rule has a two-symbol RHS;
the fold returns 99 and tokens are injected as their form length. -/
def rules7 : List (Rule Nat) := [⟨strOf "Init", [strOf "_ID", strOf "_ID"], fun _ => 99⟩]

/-- Its tables. -/
def tb7 : Tables := okOr (buildTables 20 rules7)

/-- Token injection distinguishing the two identifier tokens below. -/
def inj7 : Token → Nat := fun t => t.form.length

/-- Input `x yy <EOF>`. -/
def toks7 : List Token :=
  [⟨TokType.word, strOf "x", strOf "1:1", []⟩,
   ⟨TokType.word, strOf "yy", strOf "1:3", []⟩,
   ⟨TokType.eof, [], strOf "1:5", []⟩]

/-- The configuration at the moment Accept fires on `toks7`. -/
def cfg7 : ParseConfig Nat :=
  match parseRun rules7 tb7 inj7 (keywordsOf tb7.act) (termsOf tb7.act) 10
      ⟨toks7, [tb7.initKey], []⟩ with
  | .done c _ => c
  | _ => ⟨[], [], []⟩

/-- The dangling-else-style grammar `Init -> S`, `S -> _ID`,
`S -> _ID &a`: after `_ID` the parser may shift `&a` or reduce `S -> _ID`. -/
def rules4 : List (Rule Unit) :=
  [⟨strOf "Init", [strOf "S"], uconv⟩,
   ⟨strOf "S", [strOf "_ID"], uconv⟩,
   ⟨strOf "S", [strOf "_ID", strOf "&a"], uconv⟩]

/-- Its tables. -/
def tb4 : Tables := okOr (buildTables 30 rules4)

/-- The state of `rules4` reached after shifting `_ID`. -/
def st4 : List Item :=
  closeItems rules4 (advance (closeItems rules4 [⟨strOf "Init", [strOf "S"], 0⟩]) (strOf "_ID"))

/-- A grammar whose construction succeeds although one state completes two
distinct rules (`S -> &a` and `S2 -> &a`): every seen-terminal cell of that
state already holds a Shift, which requires `_EOF` inside a right-hand
side. -/
def rules5x : List (Rule Unit) :=
  [⟨strOf "Init", [strOf "S"], uconv⟩,
   ⟨strOf "S", [strOf "&a"], uconv⟩,
   ⟨strOf "S2", [strOf "&a"], uconv⟩,
   ⟨strOf "S", [strOf "&a", strOf "_EOF", strOf "&a"], uconv⟩,
   ⟨strOf "S", [strOf "&a", strOf "&a"], uconv⟩,
   ⟨strOf "S", [strOf "S2", strOf "&a"], uconv⟩]

/-- Its tables. -/
def tb5x : Tables := okOr (buildTables 30 rules5x)

/-- The doubly-completing state of `rules5x`, reached after shifting `&a`. -/
def st5x : List Item :=
  closeItems rules5x (advance (closeItems rules5x [⟨strOf "Init", [strOf "S"], 0⟩]) (strOf "&a"))

/-- A one-row ACTION table with the literal-terminal column `&if`. -/
def act8 : List ((Str × Str) × PAct) :=
  [((strOf "s0", strOf "&if"), PAct.shift (strOf "s1"))]

/-- The word token `if`. -/
def tok8 : Token := ⟨TokType.word, strOf "if", strOf "2:1", []⟩

/-- Clusters `==` and `=>`. -/
def cl9 : List Str := [strOf "==", strOf "=>"]

/-- Tokens `= > x = =`: the first two fuse to `=>`, the word is copied, the
last two fuse to `==`. -/
def toks9 : List Token :=
  [⟨TokType.symbol, strOf "=", strOf "3:1", []⟩,
   ⟨TokType.symbol, strOf ">", strOf "3:2", []⟩,
   ⟨TokType.word, strOf "x", strOf "3:3", []⟩,
   ⟨TokType.symbol, strOf "=", strOf "3:4", []⟩,
   ⟨TokType.symbol, strOf "=", strOf "3:5", []⟩]

/-- Operators `*` at priority 2 and `+` at priority 1, listed with the
higher priority first, so that the Go map over priorities can iterate its
keys in the order `[2, 1]`. -/
def ops1 : List Operator :=
  [⟨Assoc.left, 2, [strOf "&*"]⟩, ⟨Assoc.left, 1, [strOf "&+"]⟩]

/-- The rules `BuildOperatorRules("root", "leaf", ops1, builder)` emits when
the priority map iterates `[2, 1]`; the builder records the operator name it
receives. -/
def rs1 : List (Rule Str) :=
  buildOperatorRules (strOf "root") (strOf "leaf") ops1 (fun n _ _ => n) (prioKeys ops1)

/-- Operators `+` and `-` sharing priority 1. -/
def ops2 : List Operator :=
  [⟨Assoc.left, 1, [strOf "&+"]⟩, ⟨Assoc.left, 1, [strOf "&-"]⟩]

/-- The rules `BuildOperatorRules("E", "T", ops2, builder)` emits; the
builder records the operator name it receives. -/
def rs2 : List (Rule Str) :=
  buildOperatorRules (strOf "E") (strOf "T") ops2 (fun n _ _ => n) (prioKeys ops2)

/-- Table evolution during reduce population: every existing entry survives
unchanged, and any new entry is a Reduce written into a previously empty
cell. -/
def TPres (t1 t2 : List ((Str × Str) × PAct)) : Prop :=
  ∀ k v,
    (lookupTbl t1 k = some v → lookupTbl t2 k = some v) ∧
    (lookupTbl t2 k = some v →
      lookupTbl t1 k = some v ∨ ((∃ i, v = PAct.reduce i) ∧ lookupTbl t1 k = none))

/-! ## Theorems -/

/-! ### Generic lemmas about the table and set helpers -/

theorem lookupTbl_cons {β : Type} (k0 : Str × Str) (v0 : β)
    (t : List ((Str × Str) × β)) (k : Str × Str) :
    lookupTbl ((k0, v0) :: t) k = if k0 = k then some v0 else lookupTbl t k := by
  by_cases h : k0 = k
  · subst h
    have hp : (((k0, v0) : (Str × Str) × β).1 == k0) = true := by simp
    simp [lookupTbl, List.find?_cons_of_pos _ hp]
  · have hb : ¬((((k0, v0) : (Str × Str) × β).1 == k) = true) := by simpa using h
    simp [lookupTbl, List.find?_cons_of_neg _ hb, h]

theorem lookupTbl_mem {β : Type} {t : List ((Str × Str) × β)} {k : Str × Str}
    {v : β} (h : lookupTbl t k = some v) : (k, v) ∈ t := by
  induction t with
  | nil => simp [lookupTbl] at h
  | cons e rest ih =>
    rcases e with ⟨ek, ev⟩
    rw [lookupTbl_cons] at h
    by_cases hk : ek = k
    · subst hk
      simp only [if_true] at h
      rcases h with h
      simp_all
    · rw [if_neg hk] at h
      exact List.mem_cons_of_mem _ (ih h)

theorem mem_foldl_dedup (l : List Str) :
    ∀ (acc : List Str) (x : Str),
      (x ∈ l.foldl (fun acc x => if acc.contains x then acc else acc ++ [x]) acc ↔
        x ∈ acc ∨ x ∈ l) := by
  induction l with
  | nil => intro acc x; simp
  | cons c cs ih =>
    intro acc x
    rw [List.foldl_cons, ih]
    by_cases hc : c ∈ acc
    · have hb : acc.contains c = true := by simp [List.elem_eq_mem, hc]
      rw [hb]
      simp only [if_true, List.mem_cons]
      constructor
      · rintro (h | h)
        · exact Or.inl h
        · exact Or.inr (Or.inr h)
      · rintro (h | h | h)
        · exact Or.inl h
        · exact Or.inl (h ▸ hc)
        · exact Or.inr h
    · have hb : acc.contains c = false := by simp [List.elem_eq_mem, hc]
      rw [hb]
      simp only [Bool.false_eq_true, if_false, List.mem_append,
        List.mem_singleton, List.mem_cons]
      tauto

theorem mem_dedupStr {l : List Str} {x : Str} : x ∈ dedupStr l ↔ x ∈ l := by
  unfold dedupStr
  rw [mem_foldl_dedup]
  simp

theorem mem_termsOf {act : List ((Str × Str) × PAct)} {t : Str} :
    t ∈ termsOf act ↔ ∃ e, e ∈ act ∧ e.1.2 = t := by
  unfold termsOf
  rw [mem_dedupStr, List.mem_map]

theorem mem_kwFold (l : List Str) :
    ∀ (acc : List Str) (x : Str),
      (x ∈ l.foldl kwStep acc ↔ x ∈ acc ∨ ('&' :: x) ∈ l) := by
  induction l with
  | nil => intro acc x; simp
  | cons c cs ih =>
    intro acc x
    rw [List.foldl_cons, ih]
    have hstep : x ∈ kwStep acc c ↔ x ∈ acc ∨ c = '&' :: x := by
      unfold kwStep
      split
      · rename_i rest
        by_cases hm : rest ∈ acc
        · have hb : acc.contains rest = true := by simp [List.elem_eq_mem, hm]
          rw [hb]
          simp only [if_true, List.cons.injEq, true_and]
          constructor
          · exact fun h => Or.inl h
          · rintro (h | h)
            · exact h
            · exact h ▸ hm
        · have hb : acc.contains rest = false := by simp [List.elem_eq_mem, hm]
          rw [hb]
          simp only [Bool.false_eq_true, if_false, List.mem_append,
            List.mem_singleton, List.cons.injEq, true_and]
          constructor
          · rintro (h | h)
            · exact Or.inl h
            · exact Or.inr h.symm
          · rintro (h | h)
            · exact Or.inl h
            · exact Or.inr h.symm
      · rename_i hno
        constructor
        · exact fun h => Or.inl h
        · rintro (h | h)
          · exact h
          · exact absurd h.symm (by intro hcon; exact hno x hcon.symm)
    rw [hstep, List.mem_cons]
    constructor
    · rintro ((h | h) | h)
      · exact Or.inl h
      · exact Or.inr (Or.inl h.symm)
      · exact Or.inr (Or.inr h)
    · rintro (h | h | h)
      · exact Or.inl (Or.inl h)
      · exact Or.inl (Or.inr h.symm)
      · exact Or.inr h

theorem mem_keywordsOf {act : List ((Str × Str) × PAct)} {x : Str} :
    x ∈ keywordsOf act ↔ ('&' :: x) ∈ act.map (fun e => e.1.2) := by
  unfold keywordsOf
  rw [mem_kwFold]
  exact ⟨fun h => h.resolve_left (List.not_mem_nil x), Or.inr⟩

/-- C8: during `Parse`, a Word token is classified as the literal terminal
`&lexeme` exactly when `&lexeme` occurs as an ACTION column — the keyword set
being derived from ACTION's `&`-prefixed columns — and as `_ID` otherwise. -/
theorem claimC8 (act : List ((Str × Str) × PAct)) (t : Token)
    (htype : t.type = TokType.word) :
    (classify (keywordsOf act) t = '&' :: t.form ∧
      ('&' :: t.form) ∈ act.map (fun e => e.1.2)) ∨
    (classify (keywordsOf act) t = strOf "_ID" ∧
      ('&' :: t.form) ∉ act.map (fun e => e.1.2)) := by
  have hcl : classify (keywordsOf act) t =
      if (keywordsOf act).contains t.form then '&' :: t.form else strOf "_ID" := by
    unfold classify
    rw [htype]
  by_cases hm : t.form ∈ keywordsOf act
  · left
    refine ⟨?_, mem_keywordsOf.mp hm⟩
    rw [hcl]
    have hb : (keywordsOf act).contains t.form = true := by
      simp [List.elem_eq_mem, hm]
    rw [hb]
    simp
  · right
    constructor
    · rw [hcl]
      have hb : (keywordsOf act).contains t.form = false := by
        simp [List.elem_eq_mem, hm]
      rw [hb]
      simp
    · intro hcon
      exact hm (mem_keywordsOf.mpr hcon)

/-- C8 witness: for an ACTION table with column `&if`, the word `if` is
classified as the literal terminal `&if`. -/
theorem claimC8_witness :
    (classify (keywordsOf act8) tok8 = '&' :: tok8.form ∧
      ('&' :: tok8.form) ∈ act8.map (fun e => e.1.2)) ∨
    (classify (keywordsOf act8) tok8 = strOf "_ID" ∧
      ('&' :: tok8.form) ∉ act8.map (fun e => e.1.2)) :=
  claimC8 act8 tok8 (by rfl)

/-- C3: confirmed.  When the ACTION lookup for the current state and the
classified front token misses, `Parse` returns an error (the `.failed`
outcome, not a panic) built from the ACTION columns defined at the current
state: `no expected symbol` with no column, `expected <s> at line <loc>` with
exactly one, `expected one of s1, s2, ... at line <loc>` with several, each
column rendered as `'X'` for `&X`, `identifier` for `_ID`, `number` for
`_NUM`, `string` for `_STR`, `EOF` for `_EOF`, `EOL` for `_EOL`, and raw
otherwise (the code renders the location as `line <Loc>`, the `<loc>` of the
claim). -/
theorem claimC3 {α : Type} (rules : List (Rule α)) (tb : Tables) (inj : Token → α)
    (keywords terminals : List Str) (c : ParseConfig α) (tok : Token)
    (rest : List Token) (cur : Str)
    (htok : c.tokens = tok :: rest)
    (hcur : c.stateStack.getLast? = some cur)
    (hmiss : lookupTbl tb.act (cur, classify keywords tok) = none) :
    parseStep rules tb inj keywords terminals c =
      StepOut.failed (expectedMsg tb.act terminals cur tok.loc) ∧
    ((terminals.filter (fun t => (lookupTbl tb.act (cur, t)).isSome)).map renderTerm
        = [] →
      expectedMsg tb.act terminals cur tok.loc = strOf "no expected symbol") ∧
    (∀ x,
      (terminals.filter (fun t => (lookupTbl tb.act (cur, t)).isSome)).map renderTerm
          = [x] →
      expectedMsg tb.act terminals cur tok.loc =
        strOf "expected " ++ x ++ strOf " at line " ++ tok.loc) ∧
    (2 ≤ ((terminals.filter (fun t => (lookupTbl tb.act (cur, t)).isSome)).map
        renderTerm).length →
      expectedMsg tb.act terminals cur tok.loc =
        strOf "expected one of " ++
          joinSep (strOf ", ")
            ((terminals.filter (fun t => (lookupTbl tb.act (cur, t)).isSome)).map
              renderTerm) ++
          strOf " at line " ++ tok.loc) ∧
    (∀ r2, renderTerm ('&' :: r2) = sq :: r2 ++ [sq]) ∧
    renderTerm (strOf "_ID") = strOf "identifier" ∧
    renderTerm (strOf "_NUM") = strOf "number" ∧
    renderTerm (strOf "_STR") = strOf "string" ∧
    renderTerm (strOf "_EOF") = strOf "EOF" ∧
    renderTerm (strOf "_EOL") = strOf "EOL" ∧
    (∀ t, (∀ r2, t ≠ '&' :: r2) → t ≠ strOf "_ID" → t ≠ strOf "_STR" →
      t ≠ strOf "_NUM" → t ≠ strOf "_EOF" → t ≠ strOf "_EOL" → renderTerm t = t) := by
  refine ⟨?_, ?_, ?_, ?_, fun r2 => rfl, rfl, rfl, rfl, rfl, rfl, ?_⟩
  · simp only [parseStep, htok, hcur, hmiss]
  · intro h
    unfold expectedMsg errMsg
    rw [h]
    simp
  · intro x h
    unfold expectedMsg errMsg
    rw [h]
    simp
  · intro h
    unfold expectedMsg errMsg
    rw [if_pos (by omega)]
  · intro t hamp hid hstr hnum heof heol
    unfold renderTerm
    split
    · rename_i r2
      exact absurd rfl (hamp r2)
    · have e1 : (t == strOf "_ID") = false := by simpa using hid
      have e2 : (t == strOf "_STR") = false := by simpa using hstr
      have e3 : (t == strOf "_NUM") = false := by simpa using hnum
      have e4 : (t == strOf "_EOF") = false := by simpa using heof
      have e5 : (t == strOf "_EOL") = false := by simpa using heol
      rw [e1, e2, e3, e4, e5]
      simp

/-- C3 witness: the grammar `Init -> _ID` facing a number token at its
initial state: the step fails (no panic) with the exact message
`expected identifier at line 5:2`. -/
theorem claimC3_witness :
    parseStep rules6 tb6 (fun _ => ()) (keywordsOf tb6.act) (termsOf tb6.act) cfg3 =
      StepOut.failed (expectedMsg tb6.act (termsOf tb6.act) tb6.initKey (strOf "5:2")) ∧
    expectedMsg tb6.act (termsOf tb6.act) tb6.initKey (strOf "5:2") =
      strOf "expected identifier at line 5:2" :=
  ⟨(claimC3 rules6 tb6 (fun _ => ()) (keywordsOf tb6.act) (termsOf tb6.act) cfg3
      tok3 [] tb6.initKey rfl rfl rfl).1, rfl⟩

theorem foldl_inv_mem {β γ : Type} (P : β → Prop) (f : β → γ → β) :
    ∀ (l : List γ) (b : β), (∀ b2 x, x ∈ l → P b2 → P (f b2 x)) → P b →
      P (l.foldl f b) := by
  intro l
  induction l with
  | nil => exact fun b _ h => h
  | cons x xs ih =>
    intro b hstep h
    rw [List.foldl_cons]
    exact ih _ (fun b2 y hy => hstep b2 y (List.mem_cons_of_mem _ hy))
      (hstep b x (List.mem_cons_self _ _) h)

theorem mem_addItem {m : List Item} {it x : Item} (h : x ∈ addItem m it) :
    x ∈ m ∨ x = it := by
  unfold addItem at h
  split at h
  · exact Or.inl h
  · rcases List.mem_append.mp h with h' | h'
    · exact Or.inl h'
    · exact Or.inr (List.mem_singleton.mp h')

theorem mem_addItem_fold {l : List Item} :
    ∀ {acc : List Item} {x : Item}, x ∈ l.foldl addItem acc → x ∈ acc ∨ x ∈ l := by
  induction l with
  | nil => exact fun h => Or.inl h
  | cons it its ih =>
    intro acc x h
    rw [List.foldl_cons] at h
    rcases ih h with h' | h'
    · rcases mem_addItem h' with h'' | h''
      · exact Or.inl h''
      · exact Or.inr (h'' ▸ List.mem_cons_self _ _)
    · exact Or.inr (List.mem_cons_of_mem _ h')

theorem mem_ruleFold {α : Type} {symb : Str} :
    ∀ (rl : List (Rule α)) {acc : List Item} {x : Item},
      x ∈ rl.foldl
        (fun acc2 r => if r.lhs == symb then addItem acc2 ⟨r.lhs, r.rhs, 0⟩ else acc2)
        acc →
      x ∈ acc ∨ ∃ r, r ∈ rl ∧ x = ⟨r.lhs, r.rhs, 0⟩ := by
  intro rl
  induction rl with
  | nil => exact fun h => Or.inl h
  | cons r rs ih =>
    intro acc x h
    rw [List.foldl_cons] at h
    rcases ih h with h' | ⟨r2, hr2, hx⟩
    · split at h'
      · rcases mem_addItem h' with h'' | h''
        · exact Or.inl h''
        · exact Or.inr ⟨r, List.mem_cons_self _ _, h''⟩
      · exact Or.inl h'
    · exact Or.inr ⟨r2, List.mem_cons_of_mem _ hr2, hx⟩

theorem mem_closeStep {α : Type} {rules : List (Rule α)} :
    ∀ (l : List Item) {acc : List Item} {x : Item},
      x ∈ l.foldl
        (fun acc it =>
          match it.rhs.get? it.dotPos with
          | none => acc
          | some symb =>
            rules.foldl
              (fun acc2 r =>
                if r.lhs == symb then addItem acc2 ⟨r.lhs, r.rhs, 0⟩ else acc2)
              acc)
        acc →
      x ∈ acc ∨ ∃ r, r ∈ rules ∧ x = ⟨r.lhs, r.rhs, 0⟩ := by
  intro l
  induction l with
  | nil => exact fun h => Or.inl h
  | cons it its ih =>
    intro acc x h
    rw [List.foldl_cons] at h
    rcases ih h with h' | hr
    · rcases hg : it.rhs.get? it.dotPos with _ | symb
      · rw [hg] at h'
        exact Or.inl h'
      · rw [hg] at h'
        dsimp only at h'
        exact mem_ruleFold rules h'
    · exact Or.inr hr

theorem mem_closeItems {α : Type} {rules : List (Rule α)} {items : List Item}
    {x : Item} (h : x ∈ closeItems rules items) :
    x ∈ items ∨ ∃ r, r ∈ rules ∧ x = ⟨r.lhs, r.rhs, 0⟩ := by
  unfold closeItems at h
  generalize hn : rules.length + 1 = n at h
  clear hn
  induction n with
  | zero =>
    simp only [Function.iterate_zero, id] at h
    rcases mem_addItem_fold h with h' | h'
    · simp at h'
    · exact Or.inl h'
  | succ n ih =>
    rw [Function.iterate_succ_apply'] at h
    unfold closeStep at h
    rcases mem_closeStep _ h with h' | hr
    · exact ih h'
    · exact Or.inr hr

theorem mem_advance {st : List Item} {symb : Str} {x : Item}
    (h : x ∈ advance st symb) :
    ∃ it, it ∈ st ∧ x = ⟨it.lhs, it.rhs, it.dotPos + 1⟩ := by
  unfold advance at h
  rcases List.mem_filterMap.mp h with ⟨it, hit, hf⟩
  refine ⟨it, hit, ?_⟩
  rcases hg : it.rhs.get? it.dotPos with _ | s
  · rw [hg] at hf
    dsimp only at hf
    exact absurd hf (by simp)
  · rw [hg] at hf
    dsimp only at hf
    split at hf
    · simp only [Option.some.injEq] at hf
      exact hf.symm
    · simp at hf

theorem mem_transSyms {st : List Item} {symb : Str} (h : symb ∈ transSyms st) :
    ∃ it, it ∈ st ∧ it.rhs.get? it.dotPos = some symb := by
  unfold transSyms at h
  rcases List.mem_filterMap.mp (mem_dedupStr.mp h) with ⟨it, hit, hf⟩
  exact ⟨it, hit, hf⟩

theorem procSym_src {α : Type} (rules : List (Rule α)) (accStr stKey : Str)
    (st : List Item) (b : B1) (symb : Str)
    (hst : ∀ it ∈ st, ∃ r, r ∈ rules ∧ it.rhs = r.rhs)
    (hsy : ∃ it, it ∈ st ∧ it.rhs.get? it.dotPos = some symb)
    (hact : ∀ e ∈ b.tbl.act, ∀ k2, e.2 = PAct.shift k2 → ∃ r, r ∈ rules ∧ e.1.2 ∈ r.rhs)
    (hq : ∀ st2 ∈ b.queue, ∀ it ∈ st2, ∃ r, r ∈ rules ∧ it.rhs = r.rhs) :
    (∀ e ∈ (procSym rules accStr stKey st b symb).tbl.act, ∀ k2,
      e.2 = PAct.shift k2 → ∃ r, r ∈ rules ∧ e.1.2 ∈ r.rhs) ∧
    (∀ st2 ∈ (procSym rules accStr stKey st b symb).queue, ∀ it ∈ st2,
      ∃ r, r ∈ rules ∧ it.rhs = r.rhs) := by
  have hsymb : ∃ r, r ∈ rules ∧ symb ∈ r.rhs := by
    rcases hsy with ⟨it, hit, hg⟩
    rcases hst it hit with ⟨r, hr, hrhs⟩
    refine ⟨r, hr, ?_⟩
    rw [← hrhs]
    exact List.get?_mem hg
  have hnewq : ∀ it ∈ closeItems rules (advance st symb),
      ∃ r, r ∈ rules ∧ it.rhs = r.rhs := by
    intro it hit
    rcases mem_closeItems hit with h' | ⟨r, hr, rfl⟩
    · rcases mem_advance h' with ⟨it0, hit0, rfl⟩
      exact hst it0 hit0
    · exact ⟨r, hr, rfl⟩
  unfold procSym
  dsimp only
  split
  · split
    · refine ⟨?_, hq⟩
      intro e he k2 hk2
      rcases List.mem_cons.mp he with rfl | he'
      · exact hsymb
      · exact hact e he' k2 hk2
    · split
      · refine ⟨?_, ?_⟩
        · intro e he k2 hk2
          rcases List.mem_cons.mp he with rfl | he'
          · simp at hk2
          · rcases List.mem_cons.mp he' with rfl | he''
            · exact hsymb
            · exact hact e he'' k2 hk2
        · intro st2 hst2
          rcases List.mem_append.mp hst2 with h' | h'
          · exact hq st2 h'
          · rw [List.mem_singleton.mp h']
            exact hnewq
      · refine ⟨?_, ?_⟩
        · intro e he k2 hk2
          rcases List.mem_cons.mp he with rfl | he'
          · exact hsymb
          · exact hact e he' k2 hk2
        · intro st2 hst2
          rcases List.mem_append.mp hst2 with h' | h'
          · exact hq st2 h'
          · rw [List.mem_singleton.mp h']
            exact hnewq
  · split
    · exact ⟨hact, hq⟩
    · split
      · refine ⟨?_, ?_⟩
        · intro e he k2 hk2
          rcases List.mem_cons.mp he with rfl | he'
          · simp at hk2
          · exact hact e he' k2 hk2
        · intro st2 hst2
          rcases List.mem_append.mp hst2 with h' | h'
          · exact hq st2 h'
          · rw [List.mem_singleton.mp h']
            exact hnewq
      · refine ⟨hact, ?_⟩
        intro st2 hst2
        rcases List.mem_append.mp hst2 with h' | h'
        · exact hq st2 h'
        · rw [List.mem_singleton.mp h']
          exact hnewq

theorem procState_src {α : Type} (rules : List (Rule α)) (accStr : Str)
    (b : B1) (st : List Item)
    (hst : ∀ it ∈ st, ∃ r, r ∈ rules ∧ it.rhs = r.rhs)
    (hact : ∀ e ∈ b.tbl.act, ∀ k2, e.2 = PAct.shift k2 → ∃ r, r ∈ rules ∧ e.1.2 ∈ r.rhs)
    (hq : ∀ st2 ∈ b.queue, ∀ it ∈ st2, ∃ r, r ∈ rules ∧ it.rhs = r.rhs) :
    (∀ e ∈ (procState rules accStr b st).tbl.act, ∀ k2,
      e.2 = PAct.shift k2 → ∃ r, r ∈ rules ∧ e.1.2 ∈ r.rhs) ∧
    (∀ st2 ∈ (procState rules accStr b st).queue, ∀ it ∈ st2,
      ∃ r, r ∈ rules ∧ it.rhs = r.rhs) := by
  unfold procState
  dsimp only
  split
  · exact ⟨hact, hq⟩
  · apply foldl_inv_mem
      (fun b2 =>
        (∀ e ∈ b2.tbl.act, ∀ k2, e.2 = PAct.shift k2 →
          ∃ r, r ∈ rules ∧ e.1.2 ∈ r.rhs) ∧
        (∀ st2 ∈ b2.queue, ∀ it ∈ st2, ∃ r, r ∈ rules ∧ it.rhs = r.rhs))
      (procSym rules accStr (stateString st) st)
      (transSyms st)
    · intro b2 symb hmem h
      exact procSym_src rules accStr (stateString st) st b2 symb hst
        (mem_transSyms hmem) h.1 h.2
    · exact ⟨hact, hq⟩

theorem buildLoop_src {α : Type} (rules : List (Rule α)) (accStr : Str) :
    ∀ (fuel : Nat) (b : B1),
      (∀ e ∈ b.tbl.act, ∀ k2, e.2 = PAct.shift k2 →
        ∃ r, r ∈ rules ∧ e.1.2 ∈ r.rhs) →
      (∀ st2 ∈ b.queue, ∀ it ∈ st2, ∃ r, r ∈ rules ∧ it.rhs = r.rhs) →
      ∀ e ∈ (buildLoop rules accStr fuel b).tbl.act, ∀ k2,
        e.2 = PAct.shift k2 → ∃ r, r ∈ rules ∧ e.1.2 ∈ r.rhs := by
  intro fuel
  induction fuel with
  | zero => exact fun b ha _ => ha
  | succ n ih =>
    intro b ha hq
    rw [buildLoop]
    split
    · exact ha
    · rename_i st rest hqe
      have hst : ∀ it ∈ st, ∃ r, r ∈ rules ∧ it.rhs = r.rhs :=
        hq st (by rw [hqe]; exact List.mem_cons_self _ _)
      have hrest : ∀ st2 ∈ rest, ∀ it ∈ st2, ∃ r, r ∈ rules ∧ it.rhs = r.rhs :=
        fun st2 h2 => hq st2 (by rw [hqe]; exact List.mem_cons_of_mem _ h2)
      have h2 := procState_src rules accStr { b with queue := rest } st hst ha hrest
      exact ih _ h2.1 h2.2

theorem phase1_src {α : Type} (rules : List (Rule α)) (fuel : Nat) :
    ∀ e ∈ (phase1 fuel rules).tbl.act, ∀ k2,
      e.2 = PAct.shift k2 → ∃ r, r ∈ rules ∧ e.1.2 ∈ r.rhs := by
  unfold phase1
  split
  · simp
  · rename_i r0 rrest
    apply buildLoop_src
    · simp
    · intro st2 hst2 it hit
      rw [List.mem_singleton.mp hst2] at hit
      rcases mem_closeItems hit with h' | ⟨r, hr, rfl⟩
      · rw [List.mem_singleton.mp h']
        exact ⟨r0, List.mem_cons_self _ _, rfl⟩
      · exact ⟨r, hr, rfl⟩

theorem fillCell_mem {s t : Str} {i : Nat} {tbl tbl2 : List ((Str × Str) × PAct)}
    (h : fillCell s t i tbl = Except.ok tbl2) :
    ∀ e ∈ tbl2, e ∈ tbl ∨ ∃ j, e.2 = PAct.reduce j := by
  unfold fillCell at h
  split at h
  · simp only [Except.ok.injEq] at h
    subst h
    exact fun e he => Or.inl he
  · simp at h
  · simp only [Except.ok.injEq] at h
    subst h
    intro e he
    rcases List.mem_cons.mp he with rfl | he'
    · exact Or.inr ⟨i, rfl⟩
    · exact Or.inl he'

theorem fillCells_mem {s : Str} {i : Nat} :
    ∀ (terms : List Str) (tbl tbl2 : List ((Str × Str) × PAct)),
      exceptFold (fun tb t => fillCell s t i tb) tbl terms = Except.ok tbl2 →
      ∀ e ∈ tbl2, e ∈ tbl ∨ ∃ j, e.2 = PAct.reduce j := by
  intro terms
  induction terms with
  | nil =>
    intro tbl tbl2 h
    simp only [exceptFold, Except.ok.injEq] at h
    subst h
    exact fun e he => Or.inl he
  | cons t0 ts0 ih =>
    intro tbl tbl2 h
    simp only [exceptFold] at h
    split at h
    · rename_i b2 hf
      intro e he
      rcases ih _ _ h e he with h' | h'
      · exact fillCell_mem hf e h'
      · exact Or.inr h'
    · simp at h

theorem fillRule_mem {α : Type} {rules : List (Rule α)} {terminals : List Str}
    {stKey : Str} {st : List Item} {tbl tbl2 : List ((Str × Str) × PAct)} {i : Nat}
    (h : fillRule rules terminals stKey st tbl i = Except.ok tbl2) :
    ∀ e ∈ tbl2, e ∈ tbl ∨ ∃ j, e.2 = PAct.reduce j := by
  unfold fillRule at h
  split at h
  · simp only [Except.ok.injEq] at h
    subst h
    exact fun e he => Or.inl he
  · split at h
    · exact fillCells_mem terminals tbl tbl2 h
    · simp only [Except.ok.injEq] at h
      subst h
      exact fun e he => Or.inl he

theorem fillRules_mem {α : Type} {rules : List (Rule α)} {terminals : List Str}
    {stKey : Str} {st : List Item} :
    ∀ (idx : List Nat) (tbl tbl2 : List ((Str × Str) × PAct)),
      exceptFold (fillRule rules terminals stKey st) tbl idx = Except.ok tbl2 →
      ∀ e ∈ tbl2, e ∈ tbl ∨ ∃ j, e.2 = PAct.reduce j := by
  intro idx
  induction idx with
  | nil =>
    intro tbl tbl2 h
    simp only [exceptFold, Except.ok.injEq] at h
    subst h
    exact fun e he => Or.inl he
  | cons i0 is0 ih =>
    intro tbl tbl2 h
    simp only [exceptFold] at h
    split at h
    · rename_i b2 hf
      intro e he
      rcases ih _ _ h e he with h' | h'
      · exact fillRule_mem hf e h'
      · exact Or.inr h'
    · simp at h

theorem reduceFill_mem {α : Type} {rules : List (Rule α)} {terminals : List Str} :
    ∀ (statesL : List (Str × List Item)) (tbl tbl2 : List ((Str × Str) × PAct)),
      reduceFill rules statesL terminals tbl = Except.ok tbl2 →
      ∀ e ∈ tbl2, e ∈ tbl ∨ ∃ j, e.2 = PAct.reduce j := by
  intro statesL
  induction statesL with
  | nil =>
    intro tbl tbl2 h
    simp only [reduceFill, exceptFold, Except.ok.injEq] at h
    subst h
    exact fun e he => Or.inl he
  | cons p ps ih =>
    intro tbl tbl2 h
    simp only [reduceFill, exceptFold] at h
    split at h
    · rename_i b2 hf
      intro e he
      rcases ih _ _ h e he with h' | h'
      · exact fillRules_mem (List.range rules.length) tbl b2 hf e h'
      · exact Or.inr h'
    · simp at h

theorem buildTables_noShiftEOF {α : Type} {rules : List (Rule α)} {fuel : Nat}
    {tb : Tables} (hok : buildTables fuel rules = Except.ok tb)
    (hrhs : ∀ r ∈ rules, strOf "_EOF" ∉ r.rhs) :
    ∀ s a, lookupTbl tb.act (s, strOf "_EOF") = some a →
      ∀ k2, a ≠ PAct.shift k2 := by
  intro s a hlk k2 heq
  subst heq
  simp only [buildTables] at hok
  rcases hr : reduceFill rules (phase1 fuel rules).tbl.statesL
      (termsOf (phase1 fuel rules).tbl.act) (phase1 fuel rules).tbl.act
    with e | act2
  · rw [hr] at hok
    simp only [Except.map] at hok
    exact absurd hok (by simp)
  · rw [hr] at hok
    simp only [Except.map, Except.ok.injEq] at hok
    have hta : tb.act = act2 := by rw [← hok]
    have hm := lookupTbl_mem hlk
    rw [hta] at hm
    rcases reduceFill_mem _ _ _ hr _ hm with hm1 | ⟨j, hj⟩
    · rcases phase1_src rules fuel _ hm1 k2 rfl with ⟨r, hr2, hin⟩
      exact hrhs r hr2 hin
    · simp at hj

theorem classify_of_eof (keywords : List Str) (tok : Token)
    (h : tok.type = TokType.eof) : classify keywords tok = strOf "_EOF" := by
  unfold classify
  rw [h]

theorem classify_ne_eof (keywords : List Str) (tok : Token)
    (h : tok.type ≠ TokType.eof) : classify keywords tok ≠ strOf "_EOF" := by
  have hamp : ∀ xs : Str, ('&' :: xs) ≠ strOf "_EOF" := by
    intro xs hcon
    rw [show strOf "_EOF" = '_' :: strOf "EOF" from rfl] at hcon
    simp only [List.cons.injEq] at hcon
    exact absurd hcon.1 (by decide)
  cases htype : tok.type
  case word =>
    unfold classify
    rw [htype]
    dsimp only
    split
    · exact hamp tok.form
    · decide
  case symbol =>
    unfold classify
    rw [htype]
    exact hamp tok.form
  case number =>
    unfold classify
    rw [htype]
    exact (by decide : strOf "_NUM" ≠ strOf "_EOF")
  case str =>
    unfold classify
    rw [htype]
    exact (by decide : strOf "_STR" ≠ strOf "_EOF")
  case eol =>
    unfold classify
    rw [htype]
    exact (by decide : strOf "_EOL" ≠ strOf "_EOF")
  case eof => exact absurd htype h

theorem parseStep_next_toks {α : Type} {rules : List (Rule α)} {tb : Tables}
    {inj : Token → α} {keywords terminals : List Str} {c c2 : ParseConfig α}
    (h : parseStep rules tb inj keywords terminals c = StepOut.next c2) :
    c2.tokens = c.tokens ∨
    ∃ tok rest cur s2, c.tokens = tok :: rest ∧ c2.tokens = rest ∧
      c.stateStack.getLast? = some cur ∧
      lookupTbl tb.act (cur, classify keywords tok) = some (PAct.shift s2) := by
  simp only [parseStep] at h
  rcases hct : c.tokens with _ | ⟨tok, rest⟩
  · rw [hct] at h
    dsimp only at h
    exact absurd h (by simp)
  · rw [hct] at h
    dsimp only at h
    rcases hgl : c.stateStack.getLast? with _ | cur
    · rw [hgl] at h
      dsimp only at h
      exact absurd h (by simp)
    · rw [hgl] at h
      dsimp only at h
      rcases hlk : lookupTbl tb.act (cur, classify keywords tok) with _ | act
      · rw [hlk] at h
        dsimp only at h
        exact absurd h (by simp)
      · rw [hlk] at h
        rcases act with s2 | i | _
        · simp only [StepOut.next.injEq] at h
          subst h
          exact Or.inr ⟨tok, rest, cur, s2, rfl, rfl, rfl, hlk⟩
        · dsimp only at h
          rcases hr : rules.get? i with _ | rule
          · rw [hr] at h
            dsimp only at h
            exact absurd h (by simp)
          · rw [hr] at h
            dsimp only at h
            split at h
            · split at h
              · exact absurd h (by simp)
              · split at h
                · simp only [StepOut.next.injEq] at h
                  subst h
                  exact Or.inl rfl
                · exact absurd h (by simp)
            · exact absurd h (by simp)
        · dsimp only at h
          split at h
          · exact absurd h (by simp)
          · exact absurd h (by simp)

theorem parseStep_panic_msg {α : Type} {rules : List (Rule α)} {tb : Tables}
    {inj : Token → α} {keywords terminals : List Str} {c : ParseConfig α} {m : Str}
    (h : parseStep rules tb inj keywords terminals c = StepOut.panicked m)
    (hne : c.tokens ≠ []) : m ≠ tokOutMsg := by
  simp only [parseStep] at h
  rcases hct : c.tokens with _ | ⟨tok, rest⟩
  · exact absurd hct hne
  · rw [hct] at h
    dsimp only at h
    rcases hgl : c.stateStack.getLast? with _ | cur
    · rw [hgl] at h
      dsimp only at h
      simp only [StepOut.panicked.injEq] at h
      subst h
      decide
    · rw [hgl] at h
      dsimp only at h
      rcases hlk : lookupTbl tb.act (cur, classify keywords tok) with _ | act
      · rw [hlk] at h
        dsimp only at h
        exact absurd h (by simp)
      · rw [hlk] at h
        rcases act with s2 | i | _
        · simp at h
        · dsimp only at h
          rcases hr : rules.get? i with _ | rule
          · rw [hr] at h
            dsimp only at h
            simp only [StepOut.panicked.injEq] at h
            subst h
            decide
          · rw [hr] at h
            dsimp only at h
            split at h
            · split at h
              · simp only [StepOut.panicked.injEq] at h
                subst h
                decide
              · split at h
                · simp at h
                · simp only [StepOut.panicked.injEq] at h
                  subst h
                  decide
            · simp only [StepOut.panicked.injEq] at h
              subst h
              decide
        · dsimp only at h
          split at h
          · simp only [StepOut.panicked.injEq] at h
            subst h
            decide
          · simp at h

theorem parseRun_no_tokPanic {α : Type} (rules : List (Rule α)) (tb : Tables)
    (inj : Token → α) (keywords terminals : List Str) (tE : Token)
    (hE : tE.type = TokType.eof)
    (htbl : ∀ s a, lookupTbl tb.act (s, strOf "_EOF") = some a →
      ∀ k2, a ≠ PAct.shift k2) :
    ∀ (fuel : Nat) (c : ParseConfig α) (ts : List Token),
      c.tokens = ts ++ [tE] → (∀ t ∈ ts, t.type ≠ TokType.eof) →
      parseRun rules tb inj keywords terminals fuel c ≠
        RunOut.panicked tokOutMsg := by
  intro fuel
  induction fuel with
  | zero =>
    intro c ts htok hts
    simp [parseRun]
  | succ n ih =>
    intro c ts htok hts
    rw [parseRun]
    have hne : c.tokens ≠ [] := by
      rw [htok]
      simp
    rcases hstep : parseStep rules tb inj keywords terminals c
      with c2 | ⟨c2, v2⟩ | m | m
    · -- next
      rcases parseStep_next_toks hstep with hsame | ⟨tok, rest, cur, s2, hc, hc2, hgl, hlk⟩
      · exact ih c2 ts (by rw [hsame, htok]) hts
      · -- a shift consumed the front token, which cannot be the EOF token
        have htokne : tok.type ≠ TokType.eof := by
          intro heq
          have := classify_of_eof keywords tok heq
          rw [this] at hlk
          exact htbl cur (PAct.shift s2) hlk s2 rfl
        rcases ts with _ | ⟨t0, ts'⟩
        · rw [htok] at hc
          simp only [List.nil_append, List.cons.injEq] at hc
          exact absurd (hc.1 ▸ hE) htokne
        · rw [htok] at hc
          simp only [List.cons_append, List.cons.injEq] at hc
          refine ih c2 ts' ?_ (fun t ht => hts t (List.mem_cons_of_mem _ ht))
          rw [hc2, ← hc.2]
    · simp
    · simp
    · -- panicked
      intro hcon
      simp only [RunOut.panicked.injEq] at hcon
      exact parseStep_panic_msg hstep hne hcon

/-- C10: confirmed.  For a grammar none of whose right-hand sides contains
`_EOF` and a token list ending in a single EOF token, every ACTION entry on
the `_EOF` column is Accept or Reduce (never Shift), so the EOF token is
never consumed and every front-token read of the parse loop is in bounds:
the run never hits the `tokens[0]` out-of-range panic. -/
theorem claimC10 {α : Type} (rules : List (Rule α)) (fuel pfuel : Nat)
    (tb : Tables) (inj : Token → α) (ts : List Token) (tE : Token)
    (hok : buildTables fuel rules = Except.ok tb)
    (hrhs : ∀ r ∈ rules, strOf "_EOF" ∉ r.rhs)
    (hE : tE.type = TokType.eof)
    (hts : ∀ t ∈ ts, t.type ≠ TokType.eof) :
    (∀ s a, lookupTbl tb.act (s, strOf "_EOF") = some a →
      ∀ k2, a ≠ PAct.shift k2) ∧
    parseRun rules tb inj (keywordsOf tb.act) (termsOf tb.act) pfuel
      ⟨ts ++ [tE], [tb.initKey], []⟩ ≠ RunOut.panicked tokOutMsg := by
  have htbl := buildTables_noShiftEOF hok hrhs
  exact ⟨htbl,
    parseRun_no_tokPanic rules tb inj (keywordsOf tb.act) (termsOf tb.act) tE hE htbl
      pfuel ⟨ts ++ [tE], [tb.initKey], []⟩ ts rfl hts⟩

/-- C10 witness: for the grammar `Init -> _ID` on input `x <EOF>`, the parse
loop never reads out of bounds. -/
theorem claimC10_witness :
    parseRun rules6 tb6 (fun _ => ()) (keywordsOf tb6.act) (termsOf tb6.act) 10
      ⟨[⟨TokType.word, strOf "x", strOf "1:1", []⟩] ++
          [⟨TokType.eof, [], strOf "1:2", []⟩],
        [tb6.initKey], []⟩ ≠ RunOut.panicked tokOutMsg :=
  (claimC10 rules6 20 10 tb6 (fun _ => ())
    [⟨TokType.word, strOf "x", strOf "1:1", []⟩] ⟨TokType.eof, [], strOf "1:2", []⟩
    rfl (by decide) rfl (by decide)).2

theorem restMatches_eq_zip :
    ∀ (cs : List Char) (ts : List Token), cs.length ≤ ts.length →
      restMatches ts cs = ((ts.take cs.length).zip cs).all (fun p => pairOk p.1 p.2) := by
  intro cs
  induction cs with
  | nil =>
    intro ts h
    simp [restMatches]
  | cons ch cs ih =>
    intro ts h
    cases ts with
    | nil => simp at h
    | cons t ts' =>
      simp only [restMatches, List.length_cons, List.take_succ_cons,
        List.zip_cons_cons, List.all_cons]
      rw [ih ts' (by simpa using h)]

theorem matches_eq_spec (t : Token) (rest : List Token) (c : Str)
    (hsym : t.type = TokType.symbol) (hne : c ≠ []) (hhd : c.take 1 = t.form) :
    matchesCluster (t :: rest) c = specRunOk (t :: rest) c := by
  rcases c with _ | ⟨c0, ctail⟩
  · exact absurd rfl hne
  rcases ctail with _ | ⟨c1, ctail'⟩
  · simp [matchesCluster, specRunOk]
  · have hform : t.form = [c0] := by
      rw [← hhd]
      rfl
    by_cases hlen : (c0 :: c1 :: ctail').length ≤ (t :: rest).length
    · have hlen2 : (c1 :: ctail').length ≤ rest.length := by
        simp only [List.length_cons] at hlen ⊢
        omega
      unfold matchesCluster specRunOk
      simp only [List.length_cons, List.take_succ_cons, List.zip_cons_cons,
        List.all_cons, List.drop_succ_cons, List.drop_zero]
      have hp : pairOk t c0 = true := by
        unfold pairOk
        rw [hsym, hform]
        simp
      rw [hp]
      have hd1 : decide ((c0 :: c1 :: ctail').length ≤ (t :: rest).length) = true := by
        simpa using hlen
      simp only [List.length_cons] at hd1
      rw [restMatches_eq_zip (c1 :: ctail') rest hlen2]
      simp only [List.length_cons, hd1]
      have hd2 : decide (2 ≤ ctail'.length + 1 + 1) = true := by
        simp
      rw [hd2]
      simp
    · unfold matchesCluster specRunOk
      have hd1 : decide ((c0 :: c1 :: ctail').length ≤ (t :: rest).length) = false := by
        simpa using hlen
      simp only [List.length_cons] at hd1 ⊢
      rw [hd1]
      simp

theorem spec_false_head (t : Token) (rest : List Token) (c : Str)
    (hne : c ≠ []) (hhd : c.take 1 ≠ t.form) :
    specRunOk (t :: rest) c = false := by
  rcases c with _ | ⟨c0, ctail⟩
  · exact absurd rfl hne
  rcases ctail with _ | ⟨c1, ctail'⟩
  · simp [specRunOk]
  · have hform : t.form ≠ [c0] := by
      intro hcon
      exact hhd (by rw [hcon]; rfl)
    by_cases hlen : (c0 :: c1 :: ctail').length ≤ (t :: rest).length
    · unfold specRunOk
      simp only [List.length_cons, List.take_succ_cons, List.zip_cons_cons,
        List.all_cons]
      have hp : pairOk t c0 = false := by
        unfold pairOk
        have : (t.form == [c0]) = false := by
          simpa using hform
        rw [this]
        simp
      rw [hp]
      simp
    · unfold specRunOk
      have hd1 : decide ((c0 :: c1 :: ctail').length ≤ (t :: rest).length) = false := by
        simpa using hlen
      simp only [List.length_cons] at hd1 ⊢
      rw [hd1]
      simp

theorem find_eq (t : Token) (rest : List Token)
    (hsym : t.type = TokType.symbol) :
    ∀ (clusters : List Str), (∀ c ∈ clusters, c ≠ []) →
      (clusters.filter (fun c => c.take 1 == t.form)).find?
          (matchesCluster (t :: rest)) =
        clusters.find? (specRunOk (t :: rest)) := by
  intro clusters
  induction clusters with
  | nil => intro _; simp
  | cons c cs ih =>
    intro hne
    have hc : c ≠ [] := hne c (List.mem_cons_self _ _)
    have hcs : ∀ c' ∈ cs, c' ≠ [] := fun c' h' => hne c' (List.mem_cons_of_mem _ h')
    by_cases hhd : c.take 1 = t.form
    · have hfil : (c :: cs).filter (fun c => c.take 1 == t.form) =
          c :: cs.filter (fun c => c.take 1 == t.form) :=
        List.filter_cons_of_pos (by simpa using hhd)
      rw [hfil]
      have heq := matches_eq_spec t rest c hsym hc hhd
      cases hm : matchesCluster (t :: rest) c
      · rw [List.find?_cons_of_neg _ (by simp [hm]),
          List.find?_cons_of_neg _ (by simp [← heq, hm])]
        exact ih hcs
      · rw [List.find?_cons_of_pos _ (by simp [hm]),
          List.find?_cons_of_pos _ (by simp [← heq, hm])]
    · have hfil : (c :: cs).filter (fun c => c.take 1 == t.form) =
          cs.filter (fun c => c.take 1 == t.form) :=
        List.filter_cons_of_neg (by simpa using hhd)
      rw [hfil, ih hcs,
        List.find?_cons_of_neg _ (by simp [spec_false_head t rest c hc hhd])]

/-- C9: confirmed.  Over nonempty clusters (Go's `c[:1]` already panics on an
empty one; the spec only admits multi-character clusters), `CoalesceSymbols`
coincides with the claim-side description `coalesceSpec`: at each Symbol
token, the first cluster in list order whose full run of adjacent
single-character Symbol or Word tokens matches is fused into one Symbol token
whose lexeme is the cluster and whose location is the first fused token's,
the run is skipped, and all other tokens are copied through unchanged. -/
theorem claimC9 (clusters : List Str) (hne : ∀ c ∈ clusters, c ≠ []) :
    ∀ ts, coalesceSymbols clusters ts = coalesceSpec clusters ts := by
  have main : ∀ (n : Nat) (ts : List Token), ts.length ≤ n →
      coalesceSymbols clusters ts = coalesceSpec clusters ts := by
    intro n
    induction n with
    | zero =>
      intro ts h
      cases ts with
      | nil => simp [coalesceSymbols, coalesceSpec]
      | cons t rest => simp at h
    | succ n ih =>
      intro ts h
      cases ts with
      | nil => simp [coalesceSymbols, coalesceSpec]
      | cons t rest =>
        simp only [coalesceSymbols, coalesceSpec]
        by_cases hty : (t.type == TokType.symbol) = true
        · rw [if_pos hty, if_pos hty]
          have hfe := find_eq t rest (by simpa using hty) clusters hne
          rw [hfe]
          cases hfind : clusters.find? (specRunOk (t :: rest)) with
          | none =>
            simp only [hfind]
            rw [ih rest (by simp only [List.length_cons] at h; omega)]
          | some c =>
            simp only [hfind]
            rw [ih (rest.drop (c.length - 1))
              (by simp only [List.length_drop, List.length_cons] at h ⊢; omega)]
        · rw [if_neg hty, if_neg hty]
          rw [ih rest (by simp only [List.length_cons] at h; omega)]
  exact fun ts => main ts.length ts le_rfl

/-- C9 witness: clusters `==` and `=>` on the token stream `= > x = =`. -/
theorem claimC9_witness :
    coalesceSymbols cl9 toks9 = coalesceSpec cl9 toks9 :=
  claimC9 cl9 (by decide) toks9

/-- C1: refuted on the code.  `BuildOperatorRules` collects the distinct
priorities from the `opMap` map — here iterated in its insertion order
`[2, 1]`, one of the orders Go's randomized map iteration produces — and the
`sort.Slice` call compares slice indices instead of priorities, so the list
stays `[2, 1]`: the emitted chain threads `root` to `rootOp2`, the
numerically *highest* priority, and the innermost level `rootOp1` references
`leaf`, the reverse of the claimed ascending arrangement. -/
theorem claimC1 :
    prioKeys ops1 = [2, 1] ∧
    sortSliceByIdx (prioKeys ops1) = [2, 1] ∧
    rs1.map (fun r => (r.lhs, r.rhs)) =
      [(strOf "root", [strOf "rootOp2"]),
       (strOf "rootOp2", [strOf "rootOp2", strOf "&*", strOf "rootOp1"]),
       (strOf "rootOp2", [strOf "rootOp1"]),
       (strOf "rootOp1", [strOf "rootOp1", strOf "&+", strOf "leaf"]),
       (strOf "rootOp1", [strOf "leaf"])] ∧
    rs1.head?.map (fun r => r.rhs) = some [levelSym (strOf "root") 2] ∧
    levelSym (strOf "root") 2 ≠ levelSym (strOf "root") 1 := by
  refine ⟨rfl, rfl, rfl, rfl, by decide⟩

/-- C2: refuted on the code.  Both operators of `ops2` share priority 1, so
the Go loop `for _, op := range opMap[prio]` declares a single `op` variable
shared by the two binary-rule folds (the module predates Go 1.22); when a
fold later runs, `op` holds the last operator of the group.  The binary rule
emitted for `&+` (rule index 1, right-hand side `EOp1 &+ T`) therefore passes
the builder the name `-` of the *other* operator, not the canonical name `+`
of the operator the rule was emitted for. -/
theorem claimC2 :
    prioKeys ops2 = [1] ∧
    (rs2.get? 1).map (fun r => (r.lhs, r.rhs)) =
      some (strOf "EOp1", [strOf "EOp1", strOf "&+", strOf "T"]) ∧
    (rs2.get? 1).map (fun r => r.conv [strOf "x", strOf "plus", strOf "y"]) =
      some (strOf "-") ∧
    opName ⟨Assoc.left, 1, [strOf "&+"]⟩ = strOf "+" ∧
    strOf "-" ≠ strOf "+" := by
  refine ⟨rfl, rfl, rfl, rfl, by decide⟩

theorem parseStep_next_len {α : Type} {rules : List (Rule α)} {tb : Tables}
    {inj : Token → α} {keywords terminals : List Str} {c c2 : ParseConfig α}
    (h : parseStep rules tb inj keywords terminals c = StepOut.next c2)
    (hinv : c.stateStack.length = c.resultStack.length + 1) :
    c2.stateStack.length = c2.resultStack.length + 1 := by
  simp only [parseStep] at h
  split at h
  · simp at h
  · split at h
    · simp at h
    · split at h
      · -- shift
        simp only [StepOut.next.injEq] at h
        subst h
        simp only [List.length_append, List.length_cons, List.length_nil]
        omega
      · -- reduce
        split at h
        · simp at h
        · split at h
          · split at h
            · simp at h
            · split at h
              · rename_i rule hgd htp topSt hgo ns
                simp only [StepOut.next.injEq] at h
                subst h
                simp only [List.length_append, List.length_take,
                  List.length_cons, List.length_nil]
                omega
              · simp at h
          · simp at h
      · -- accept
        split at h <;> simp at h
      · simp at h

theorem parseStep_accept {α : Type} {rules : List (Rule α)} {tb : Tables}
    {inj : Token → α} {keywords terminals : List Str} {c c2 : ParseConfig α} {v : α}
    (h : parseStep rules tb inj keywords terminals c = StepOut.accepted c2 v) :
    c2 = c ∧ c.resultStack.head? = some v := by
  simp only [parseStep] at h
  split at h
  · simp at h
  · split at h
    · simp at h
    · split at h
      · simp at h
      · split at h
        · simp at h
        · split at h
          · split at h
            · simp at h
            · split at h <;> simp at h
          · simp at h
      · -- accept
        split at h
        · simp at h
        · rename_i v0 vs hrs
          simp only [StepOut.accepted.injEq] at h
          rcases h with ⟨h1, h2⟩
          subst h1
          subst h2
          rw [hrs]
          exact ⟨rfl, rfl⟩
      · simp at h

/-- C7, amended claim: at the moment the Accept action fires, the state stack
holds exactly one more key than the result stack holds values, and `Parse`
returns `resultStack[0]` (the bottom of the result stack) with a nil error.
The counts are not `(1, 2)` in general: the counterexample's start rule with
a two-symbol right-hand side accepts with `(2, 3)`. -/
theorem claimC7 {α : Type} (rules : List (Rule α)) (tb : Tables) (inj : Token → α)
    (keywords terminals : List Str) (fuel : Nat) :
    ∀ (c0 cfg : ParseConfig α) (v : α),
      c0.stateStack.length = c0.resultStack.length + 1 →
      parseRun rules tb inj keywords terminals fuel c0 = RunOut.done cfg v →
      cfg.stateStack.length = cfg.resultStack.length + 1 ∧
        cfg.resultStack.head? = some v := by
  induction fuel with
  | zero =>
    intro c0 cfg v hinv hrun
    simp [parseRun] at hrun
  | succ n ih =>
    intro c0 cfg v hinv hrun
    rw [parseRun] at hrun
    rcases hstep : parseStep rules tb inj keywords terminals c0 with c2 | ⟨c2, v2⟩ | m | m
    · rw [hstep] at hrun
      exact ih c2 cfg v (parseStep_next_len hstep hinv) hrun
    · rw [hstep] at hrun
      simp only [RunOut.done.injEq] at hrun
      rcases hrun with ⟨h1, h2⟩
      subst h1
      subst h2
      rcases parseStep_accept hstep with ⟨hc, hh⟩
      subst hc
      exact ⟨hinv, hh⟩
    · rw [hstep] at hrun; simp at hrun
    · rw [hstep] at hrun; simp at hrun

/-- C7 witness: on the concrete accepting run of the counterexample grammar,
the state stack is one longer than the result stack and the returned value is
`resultStack[0]`. -/
theorem claimC7_witness :
    cfg7.stateStack.length = cfg7.resultStack.length + 1 ∧
      cfg7.resultStack.head? = some 1 :=
  claimC7 rules7 tb7 inj7 (keywordsOf tb7.act) (termsOf tb7.act) 10
    ⟨toks7, [tb7.initKey], []⟩ cfg7 1 (by rfl) (by rfl)

theorem tpres_refl (t : List ((Str × Str) × PAct)) : TPres t t := by
  intro k v
  exact ⟨fun h => h, fun h => Or.inl h⟩

theorem tpres_trans {a b c : List ((Str × Str) × PAct)}
    (h1 : TPres a b) (h2 : TPres b c) : TPres a c := by
  intro k v
  constructor
  · intro h
    exact (h2 k v).1 ((h1 k v).1 h)
  · intro h
    rcases (h2 k v).2 h with hb | ⟨hred, hb⟩
    · rcases (h1 k v).2 hb with ha | ⟨hred, ha⟩
      · exact Or.inl ha
      · exact Or.inr ⟨hred, ha⟩
    · rcases hla : lookupTbl a k with _ | w
      · exact Or.inr ⟨hred, rfl⟩
      · have := (h1 k w).1 hla
        rw [this] at hb
        simp at hb

theorem exceptFold_rel {β γ : Type} (f : β → γ → Except Str β) (R : β → β → Prop)
    (hrefl : ∀ b, R b b) (htrans : ∀ a b c, R a b → R b c → R a c)
    (hstep : ∀ b x b2, f b x = Except.ok b2 → R b b2) :
    ∀ (l : List γ) (b c : β), exceptFold f b l = Except.ok c → R b c := by
  intro l
  induction l with
  | nil =>
    intro b c h
    simp only [exceptFold, Except.ok.injEq] at h
    subst h
    exact hrefl b
  | cons x xs ih =>
    intro b c h
    simp only [exceptFold] at h
    split at h
    · rename_i b2 hf
      exact htrans _ _ _ (hstep b x b2 hf) (ih b2 c h)
    · simp at h

theorem fillCell_tpres {s t : Str} {i : Nat}
    {tbl tbl2 : List ((Str × Str) × PAct)}
    (h : fillCell s t i tbl = Except.ok tbl2) : TPres tbl tbl2 := by
  unfold fillCell at h
  split at h
  · -- pre-existing shift: kept
    simp only [Except.ok.injEq] at h
    subst h
    exact tpres_refl _
  · simp at h
  · -- empty cell: reduce written
    rename_i hnone
    simp only [Except.ok.injEq] at h
    subst h
    intro k v
    constructor
    · intro hv
      rw [lookupTbl_cons]
      by_cases hk : (s, t) = k
      · rw [← hk] at hv
        rw [hnone] at hv
        simp at hv
      · rw [if_neg hk]
        exact hv
    · intro hv
      rw [lookupTbl_cons] at hv
      by_cases hk : (s, t) = k
      · rw [if_pos hk] at hv
        simp only [Option.some.injEq] at hv
        refine Or.inr ⟨⟨i, hv.symm⟩, ?_⟩
        rw [← hk]
        exact hnone
      · rw [if_neg hk] at hv
        exact Or.inl hv

theorem fillRule_tpres {α : Type} {rules : List (Rule α)} {terminals : List Str}
    {stKey : Str} {st : List Item} {tbl tbl2 : List ((Str × Str) × PAct)} {i : Nat}
    (h : fillRule rules terminals stKey st tbl i = Except.ok tbl2) :
    TPres tbl tbl2 := by
  unfold fillRule at h
  split at h
  · simp only [Except.ok.injEq] at h
    subst h
    exact tpres_refl _
  · split at h
    · exact exceptFold_rel _ TPres tpres_refl (fun a b c => tpres_trans)
        (fun b x b2 hf => fillCell_tpres hf) terminals tbl tbl2 h
    · simp only [Except.ok.injEq] at h
      subst h
      exact tpres_refl _

theorem reduceFill_tpres {α : Type} {rules : List (Rule α)}
    {statesL : List (Str × List Item)} {terminals : List Str}
    {tbl tbl2 : List ((Str × Str) × PAct)}
    (h : reduceFill rules statesL terminals tbl = Except.ok tbl2) :
    TPres tbl tbl2 := by
  unfold reduceFill at h
  exact exceptFold_rel _ TPres tpres_refl (fun a b c => tpres_trans)
    (fun b x b2 hf =>
      exceptFold_rel _ TPres tpres_refl (fun a b c => tpres_trans)
        (fun b2 i b3 hf2 => fillRule_tpres hf2) _ b b2 hf)
    statesL tbl tbl2 h

/-- C4: confirmed.  Reduce population never changes an existing ACTION entry
— in particular a state admitting both a shift on `t` and a reduce of a
completed non-start item on `t` keeps the Shift — and every entry it adds is
a Reduce written into a cell that was empty after the goto-graph phase. -/
theorem claimC4 {α : Type} (rules : List (Rule α)) (fuel : Nat) (tb : Tables)
    (hok : buildTables fuel rules = Except.ok tb) :
    (∀ k a, lookupTbl (phase1 fuel rules).tbl.act k = some a →
      lookupTbl tb.act k = some a) ∧
    (∀ k v, lookupTbl tb.act k = some v →
      lookupTbl (phase1 fuel rules).tbl.act k = some v ∨
        ((∃ i, v = PAct.reduce i) ∧
          lookupTbl (phase1 fuel rules).tbl.act k = none)) := by
  simp only [buildTables] at hok
  rcases hr : reduceFill rules (phase1 fuel rules).tbl.statesL
      (termsOf (phase1 fuel rules).tbl.act) (phase1 fuel rules).tbl.act
    with e | act2
  · rw [hr] at hok
    simp only [Except.map] at hok
    exact absurd hok (by simp)
  · rw [hr] at hok
    simp only [Except.map, Except.ok.injEq] at hok
    have hact : tb.act = act2 := by rw [← hok]
    have hp := reduceFill_tpres hr
    rw [hact]
    exact ⟨fun k a h => ((hp k a).1 h), fun k v h => ((hp k v).2 h)⟩

/-- C4 witness: for the dangling-else-style grammar `rules4`, the state
reached after `_ID` completes `S -> _ID` and shifts `&a`; the final table
keeps the Shift on `&a`. -/
theorem claimC4_witness :
    lookupTbl tb4.act (stateString st4, strOf "&a") =
      some (PAct.shift (stateString (closeItems rules4 (advance st4 (strOf "&a"))))) :=
  (claimC4 rules4 30 tb4 rfl).1 (stateString st4, strOf "&a")
    (PAct.shift (stateString (closeItems rules4 (advance st4 (strOf "&a"))))) (by rfl)

theorem foldl_inv {β γ : Type} (P : β → Prop) (f : β → γ → β)
    (hstep : ∀ b x, P b → P (f b x)) :
    ∀ (l : List γ) (b : β), P b → P (l.foldl f b) := by
  intro l
  induction l with
  | nil => exact fun b h => h
  | cons x xs ih =>
    intro b h
    rw [List.foldl_cons]
    exact ih _ (hstep b x h)

theorem procSym_cols {α : Type} (rules : List (Rule α)) (accStr stKey : Str)
    (st : List Item) (b : B1) (symb : Str)
    (ha : ∀ e ∈ b.tbl.act, isTermSym e.1.2 = true)
    (hg : ∀ e ∈ b.tbl.gotoT, isTermSym e.1.2 = false) :
    (∀ e ∈ (procSym rules accStr stKey st b symb).tbl.act, isTermSym e.1.2 = true) ∧
    (∀ e ∈ (procSym rules accStr stKey st b symb).tbl.gotoT,
      isTermSym e.1.2 = false) := by
  unfold procSym
  dsimp only
  split
  · rename_i hts
    split
    · refine ⟨?_, hg⟩
      intro e he
      rcases List.mem_cons.mp he with rfl | he'
      · exact hts
      · exact ha e he'
    · split
      · refine ⟨?_, hg⟩
        intro e he
        rcases List.mem_cons.mp he with rfl | he'
        · exact (by decide : isTermSym eofSym = true)
        · rcases List.mem_cons.mp he' with rfl | he''
          · exact hts
          · exact ha e he''
      · refine ⟨?_, hg⟩
        intro e he
        rcases List.mem_cons.mp he with rfl | he'
        · exact hts
        · exact ha e he'
  · rename_i hts
    have hfalse : isTermSym symb = false := by
      cases hsy : isTermSym symb
      · rfl
      · exact absurd hsy hts
    split
    · refine ⟨ha, ?_⟩
      intro e he
      rcases List.mem_cons.mp he with rfl | he'
      · exact hfalse
      · exact hg e he'
    · split
      · refine ⟨?_, ?_⟩
        · intro e he
          rcases List.mem_cons.mp he with rfl | he'
          · exact (by decide : isTermSym eofSym = true)
          · exact ha e he'
        · intro e he
          rcases List.mem_cons.mp he with rfl | he'
          · exact hfalse
          · exact hg e he'
      · refine ⟨ha, ?_⟩
        intro e he
        rcases List.mem_cons.mp he with rfl | he'
        · exact hfalse
        · exact hg e he'

theorem procState_cols {α : Type} (rules : List (Rule α)) (accStr : Str)
    (b : B1) (st : List Item)
    (ha : ∀ e ∈ b.tbl.act, isTermSym e.1.2 = true)
    (hg : ∀ e ∈ b.tbl.gotoT, isTermSym e.1.2 = false) :
    (∀ e ∈ (procState rules accStr b st).tbl.act, isTermSym e.1.2 = true) ∧
    (∀ e ∈ (procState rules accStr b st).tbl.gotoT, isTermSym e.1.2 = false) := by
  unfold procState
  dsimp only
  split
  · exact ⟨ha, hg⟩
  · apply foldl_inv
      (fun b2 => (∀ e ∈ b2.tbl.act, isTermSym e.1.2 = true) ∧
        (∀ e ∈ b2.tbl.gotoT, isTermSym e.1.2 = false))
      (procSym rules accStr (stateString st) st)
      (fun b2 symb h => procSym_cols rules accStr (stateString st) st b2 symb h.1 h.2)
      (transSyms st)
    exact ⟨ha, hg⟩

theorem buildLoop_cols {α : Type} (rules : List (Rule α)) (accStr : Str) :
    ∀ (fuel : Nat) (b : B1),
      (∀ e ∈ b.tbl.act, isTermSym e.1.2 = true) →
      (∀ e ∈ b.tbl.gotoT, isTermSym e.1.2 = false) →
      (∀ e ∈ (buildLoop rules accStr fuel b).tbl.act, isTermSym e.1.2 = true) ∧
      (∀ e ∈ (buildLoop rules accStr fuel b).tbl.gotoT, isTermSym e.1.2 = false) := by
  intro fuel
  induction fuel with
  | zero => exact fun b ha hg => ⟨ha, hg⟩
  | succ n ih =>
    intro b ha hg
    rw [buildLoop]
    split
    · exact ⟨ha, hg⟩
    · rename_i st rest hq
      have h2 := procState_cols rules accStr { b with queue := rest } st ha hg
      exact ih _ h2.1 h2.2

theorem phase1_cols {α : Type} (rules : List (Rule α)) (fuel : Nat) :
    (∀ e ∈ (phase1 fuel rules).tbl.act, isTermSym e.1.2 = true) ∧
    (∀ e ∈ (phase1 fuel rules).tbl.gotoT, isTermSym e.1.2 = false) := by
  unfold phase1
  split
  · simp
  · exact buildLoop_cols _ _ fuel _ (by simp) (by simp)

theorem fillCell_cols {s t : Str} {i : Nat} {tbl tbl2 : List ((Str × Str) × PAct)}
    (h : fillCell s t i tbl = Except.ok tbl2) (htc : isTermSym t = true)
    (ha : ∀ e ∈ tbl, isTermSym e.1.2 = true) :
    ∀ e ∈ tbl2, isTermSym e.1.2 = true := by
  unfold fillCell at h
  split at h
  · simp only [Except.ok.injEq] at h
    subst h
    exact ha
  · simp at h
  · simp only [Except.ok.injEq] at h
    subst h
    intro e he
    rcases List.mem_cons.mp he with rfl | he'
    · exact htc
    · exact ha e he'

theorem fillCells_cols {s : Str} {i : Nat} :
    ∀ (terms : List Str) (tbl tbl2 : List ((Str × Str) × PAct)),
      exceptFold (fun tb t => fillCell s t i tb) tbl terms = Except.ok tbl2 →
      (∀ t ∈ terms, isTermSym t = true) →
      (∀ e ∈ tbl, isTermSym e.1.2 = true) →
      (∀ e ∈ tbl2, isTermSym e.1.2 = true) := by
  intro terms
  induction terms with
  | nil =>
    intro tbl tbl2 h _ ha
    simp only [exceptFold, Except.ok.injEq] at h
    subst h
    exact ha
  | cons t ts ih =>
    intro tbl tbl2 h hterm ha
    simp only [exceptFold] at h
    split at h
    · rename_i b2 hf
      exact ih _ _ h (fun t' ht' => hterm t' (List.mem_cons_of_mem _ ht'))
        (fillCell_cols hf (hterm t (List.mem_cons_self _ _)) ha)
    · simp at h

theorem fillRule_cols {α : Type} {rules : List (Rule α)} {terminals : List Str}
    {stKey : Str} {st : List Item} {tbl tbl2 : List ((Str × Str) × PAct)} {i : Nat}
    (h : fillRule rules terminals stKey st tbl i = Except.ok tbl2)
    (hterm : ∀ t ∈ terminals, isTermSym t = true)
    (ha : ∀ e ∈ tbl, isTermSym e.1.2 = true) :
    ∀ e ∈ tbl2, isTermSym e.1.2 = true := by
  unfold fillRule at h
  split at h
  · simp only [Except.ok.injEq] at h
    subst h
    exact ha
  · split at h
    · exact fillCells_cols terminals tbl tbl2 h hterm ha
    · simp only [Except.ok.injEq] at h
      subst h
      exact ha

theorem fillRules_cols {α : Type} {rules : List (Rule α)} {terminals : List Str}
    {stKey : Str} {st : List Item} :
    ∀ (idx : List Nat) (tbl tbl2 : List ((Str × Str) × PAct)),
      exceptFold (fillRule rules terminals stKey st) tbl idx = Except.ok tbl2 →
      (∀ t ∈ terminals, isTermSym t = true) →
      (∀ e ∈ tbl, isTermSym e.1.2 = true) →
      (∀ e ∈ tbl2, isTermSym e.1.2 = true) := by
  intro idx
  induction idx with
  | nil =>
    intro tbl tbl2 h _ ha
    simp only [exceptFold, Except.ok.injEq] at h
    subst h
    exact ha
  | cons i is ih =>
    intro tbl tbl2 h hterm ha
    simp only [exceptFold] at h
    split at h
    · rename_i b2 hf
      exact ih _ _ h hterm (fillRule_cols hf hterm ha)
    · simp at h

theorem reduceFill_cols {α : Type} {rules : List (Rule α)} {terminals : List Str} :
    ∀ (statesL : List (Str × List Item)) (tbl tbl2 : List ((Str × Str) × PAct)),
      reduceFill rules statesL terminals tbl = Except.ok tbl2 →
      (∀ t ∈ terminals, isTermSym t = true) →
      (∀ e ∈ tbl, isTermSym e.1.2 = true) →
      (∀ e ∈ tbl2, isTermSym e.1.2 = true) := by
  intro statesL
  induction statesL with
  | nil =>
    intro tbl tbl2 h _ ha
    simp only [reduceFill, exceptFold, Except.ok.injEq] at h
    subst h
    exact ha
  | cons p ps ih =>
    intro tbl tbl2 h hterm ha
    simp only [reduceFill, exceptFold] at h
    split at h
    · rename_i b2 hf
      have hb2 := fillRules_cols (List.range rules.length) tbl b2 hf hterm ha
      exact ih _ _ h hterm hb2
    · simp at h

/-- C6, amended claim: in the tables produced by `BuildItems`, *at most* one
of `ACTION[(s,c)]` and `GOTO[(s,c)]` is defined, never both: every ACTION
column's first character is `_` or `&` and no GOTO column's is.  ("Exactly
one" fails: cells with neither entry exist, see the counterexample.) -/
theorem claimC6 {α : Type} (rules : List (Rule α)) (fuel : Nat) (tb : Tables)
    (hok : buildTables fuel rules = Except.ok tb) :
    (∀ s c, (lookupTbl tb.act (s, c)).isSome → isTermSym c = true) ∧
    (∀ s c, (lookupTbl tb.gotoT (s, c)).isSome → isTermSym c = false) ∧
    (∀ s c, ¬((lookupTbl tb.act (s, c)).isSome ∧
      (lookupTbl tb.gotoT (s, c)).isSome)) := by
  have hcols := phase1_cols rules fuel
  simp only [buildTables] at hok
  rcases hr : reduceFill rules (phase1 fuel rules).tbl.statesL
      (termsOf (phase1 fuel rules).tbl.act) (phase1 fuel rules).tbl.act
    with e | act2
  · rw [hr] at hok
    simp only [Except.map] at hok
    exact absurd hok (by simp)
  · rw [hr] at hok
    simp only [Except.map, Except.ok.injEq] at hok
    have hterm : ∀ t ∈ termsOf (phase1 fuel rules).tbl.act, isTermSym t = true := by
      intro t ht
      rcases mem_termsOf.mp ht with ⟨e, he, rfl⟩
      exact hcols.1 e he
    have hact2 : ∀ e ∈ act2, isTermSym e.1.2 = true :=
      reduceFill_cols _ _ _ hr hterm hcols.1
    have hta : tb.act = act2 := by rw [← hok]
    have htg : tb.gotoT = (phase1 fuel rules).tbl.gotoT := by rw [← hok]
    have h1 : ∀ s c, (lookupTbl tb.act (s, c)).isSome → isTermSym c = true := by
      intro s c hd
      rcases ho : lookupTbl tb.act (s, c) with _ | v
      · rw [ho] at hd; simp at hd
      · have hm := lookupTbl_mem ho
        rw [hta] at hm
        exact hact2 _ hm
    have h2 : ∀ s c, (lookupTbl tb.gotoT (s, c)).isSome → isTermSym c = false := by
      intro s c hd
      rcases ho : lookupTbl tb.gotoT (s, c) with _ | v
      · rw [ho] at hd; simp at hd
      · have hm := lookupTbl_mem ho
        rw [htg] at hm
        exact hcols.2 _ hm
    refine ⟨h1, h2, ?_⟩
    rintro s c ⟨hd1, hd2⟩
    have ht := h1 s c hd1
    have hf := h2 s c hd2
    rw [ht] at hf
    exact absurd hf (by decide)

/-- C6 witness: for the grammar `Init -> _ID`, the defined ACTION cell
`(s0, _ID)` has a terminal-prefixed column. -/
theorem claimC6_witness : isTermSym (strOf "_ID") = true :=
  (claimC6 rules6 20 tb6 rfl).1 tb6.initKey (strOf "_ID") (by rfl)

/-- C6, counterexample: for the grammar `Init -> _ID`, the initial state is
reachable and `_EOF` is a column (the accept state's ACTION entry), yet
neither `ACTION[(s0, _EOF)]` nor `GOTO[(s0, _EOF)]` is defined — "exactly one
of the two is defined" fails; only "never both" holds. -/
theorem claimC6_counterexample :
    buildTables 20 rules6 = Except.ok tb6 ∧
    (tb6.initKey, s0items6) ∈ tb6.statesL ∧
    (strOf "_EOF") ∈ termsOf tb6.act ∧
    lookupTbl tb6.act (tb6.initKey, strOf "_EOF") = none ∧
    lookupTbl tb6.gotoT (tb6.initKey, strOf "_EOF") = none := by
  refine ⟨rfl, by decide, by decide, rfl, rfl⟩

/-- C7, counterexample: for the grammar `Init -> _ID _ID` (start rule with a
two-symbol right-hand side) on input `x yy <EOF>`, `Parse` succeeds, but at
the moment Accept fires the result stack holds the two token values `[1, 2]`
(not one) and the state stack holds three keys (not two); `Parse` returns
`resultStack[0] = 1`, the value of the *first* shifted token, with a nil
error. -/
theorem claimC7_counterexample :
    parse rules7 tb7 inj7 10 toks7 = PResult.ok 1 ∧
    parseRun rules7 tb7 inj7 (keywordsOf tb7.act) (termsOf tb7.act) 10
        ⟨toks7, [tb7.initKey], []⟩ = RunOut.done cfg7 1 ∧
    cfg7.resultStack = [1, 2] ∧
    cfg7.stateStack.length = 3 := by
  refine ⟨rfl, rfl, rfl, rfl⟩

theorem fillCell_err {s t : Str} {i : Nat} {tbl : List ((Str × Str) × PAct)}
    {a : PAct} (hlk : lookupTbl tbl (s, t) = some a) (hns : isShiftA a = false) :
    fillCell s t i tbl = Except.error (conflictMsg t) := by
  unfold fillCell
  rw [hlk]
  cases a with
  | shift k => simp [isShiftA] at hns
  | reduce j => rfl
  | accept => rfl

theorem fillCell_R {s t s' t' : Str} {i : Nat}
    {tbl tbl2 : List ((Str × Str) × PAct)}
    (h : fillCell s' t' i tbl = Except.ok tbl2)
    (hR : lookupTbl tbl (s, t) = none ∨
      ∃ a, lookupTbl tbl (s, t) = some a ∧ isShiftA a = false) :
    lookupTbl tbl2 (s, t) = none ∨
      ∃ a, lookupTbl tbl2 (s, t) = some a ∧ isShiftA a = false := by
  unfold fillCell at h
  split at h
  · simp only [Except.ok.injEq] at h
    subst h
    exact hR
  · simp at h
  · simp only [Except.ok.injEq] at h
    subst h
    by_cases hk : ((s', t') : Str × Str) = (s, t)
    · right
      refine ⟨PAct.reduce i, ?_, rfl⟩
      rw [lookupTbl_cons, if_pos hk]
    · rw [lookupTbl_cons, if_neg hk]
      exact hR

theorem tpres_NSOcc {s t : Str} {t1 t2 : List ((Str × Str) × PAct)}
    (hp : TPres t1 t2)
    (h : ∃ a, lookupTbl t1 (s, t) = some a ∧ isShiftA a = false) :
    ∃ a, lookupTbl t2 (s, t) = some a ∧ isShiftA a = false := by
  rcases h with ⟨a, hlk, hns⟩
  exact ⟨a, (hp _ a).1 hlk, hns⟩

theorem cellsFold_err {s t : Str} {i : Nat} :
    ∀ (terms : List Str) (tbl : List ((Str × Str) × PAct)), t ∈ terms →
      (∃ a, lookupTbl tbl (s, t) = some a ∧ isShiftA a = false) →
      ∃ e, exceptFold (fun tb t' => fillCell s t' i tb) tbl terms =
        Except.error e := by
  intro terms
  induction terms with
  | nil =>
    intro tbl h
    simp at h
  | cons t0 ts ih =>
    intro tbl hmem hocc
    by_cases ht0 : t0 = t
    · subst ht0
      rcases hocc with ⟨a, hlk, hns⟩
      refine ⟨conflictMsg t0, ?_⟩
      simp only [exceptFold]
      rw [fillCell_err hlk hns]
    · cases hf : fillCell s t0 i tbl with
      | error e =>
        refine ⟨e, ?_⟩
        simp only [exceptFold]
        rw [hf]
      | ok tbl' =>
        have hocc' := tpres_NSOcc (fillCell_tpres hf) hocc
        have hmem' : t ∈ ts := by
          rcases List.mem_cons.mp hmem with h' | h'
          · exact absurd h'.symm ht0
          · exact h'
        rcases ih tbl' hmem' hocc' with ⟨e, he⟩
        refine ⟨e, ?_⟩
        simp only [exceptFold]
        rw [hf]
        exact he

theorem cellsFold_estab {s t : Str} {i : Nat} :
    ∀ (terms : List Str) (tbl tbl2 : List ((Str × Str) × PAct)), t ∈ terms →
      exceptFold (fun tb t' => fillCell s t' i tb) tbl terms = Except.ok tbl2 →
      (lookupTbl tbl (s, t) = none ∨
        ∃ a, lookupTbl tbl (s, t) = some a ∧ isShiftA a = false) →
      ∃ a, lookupTbl tbl2 (s, t) = some a ∧ isShiftA a = false := by
  intro terms
  induction terms with
  | nil =>
    intro tbl tbl2 h
    simp at h
  | cons t0 ts ih =>
    intro tbl tbl2 hmem hfold hR
    simp only [exceptFold] at hfold
    split at hfold
    · rename_i tbl' hf
      by_cases ht0 : t0 = t
      · subst ht0
        rcases hR with hnone | ⟨a, hlk, hns⟩
        · have hocc' : ∃ a, lookupTbl tbl' (s, t0) = some a ∧ isShiftA a = false := by
            unfold fillCell at hf
            rw [hnone] at hf
            simp only [Except.ok.injEq] at hf
            subst hf
            refine ⟨PAct.reduce i, ?_, rfl⟩
            rw [lookupTbl_cons, if_pos rfl]
          exact tpres_NSOcc
            (exceptFold_rel _ TPres tpres_refl (fun a b c => tpres_trans)
              (fun b x b2 hfx => fillCell_tpres hfx) ts tbl' tbl2 hfold)
            hocc'
        · rw [fillCell_err hlk hns] at hf
          exact absurd hf (by simp)
      · have hR' := fillCell_R hf hR
        have hmem' : t ∈ ts := by
          rcases List.mem_cons.mp hmem with h' | h'
          · exact absurd h'.symm ht0
          · exact h'
        exact ih tbl' tbl2 hmem' hfold hR'
    · simp at hfold

theorem fillRule_R {α : Type} {rules : List (Rule α)} {terms : List Str}
    {s' : Str} {st' : List Item} {s t : Str}
    {tbl tbl2 : List ((Str × Str) × PAct)} {i : Nat}
    (h : fillRule rules terms s' st' tbl i = Except.ok tbl2)
    (hR : lookupTbl tbl (s, t) = none ∨
      ∃ a, lookupTbl tbl (s, t) = some a ∧ isShiftA a = false) :
    lookupTbl tbl2 (s, t) = none ∨
      ∃ a, lookupTbl tbl2 (s, t) = some a ∧ isShiftA a = false := by
  unfold fillRule at h
  split at h
  · simp only [Except.ok.injEq] at h
    subst h
    exact hR
  · split at h
    · exact exceptFold_rel _
        (fun a b =>
          (lookupTbl a (s, t) = none ∨
            ∃ v, lookupTbl a (s, t) = some v ∧ isShiftA v = false) →
          (lookupTbl b (s, t) = none ∨
            ∃ v, lookupTbl b (s, t) = some v ∧ isShiftA v = false))
        (fun _ hh => hh) (fun _ _ _ h1 h2 hh => h2 (h1 hh))
        (fun b x b2 hf hh => fillCell_R hf hh) terms tbl tbl2 h hR
    · simp only [Except.ok.injEq] at h
      subst h
      exact hR

theorem fillRule_estab {α : Type} {rules : List (Rule α)} {terms : List Str}
    {s : Str} {st : List Item} {t : Str}
    {tbl tbl2 : List ((Str × Str) × PAct)} {i : Nat}
    (h : fillRule rules terms s st tbl i = Except.ok tbl2)
    (hi : ¬(i = 0)) (hc : completesAt rules i st = true) (ht : t ∈ terms)
    (hR : lookupTbl tbl (s, t) = none ∨
      ∃ a, lookupTbl tbl (s, t) = some a ∧ isShiftA a = false) :
    ∃ a, lookupTbl tbl2 (s, t) = some a ∧ isShiftA a = false := by
  unfold fillRule at h
  rw [if_neg hi, if_pos hc] at h
  exact cellsFold_estab terms tbl tbl2 ht h hR

theorem fillRule_err {α : Type} {rules : List (Rule α)} {terms : List Str}
    {s : Str} {st : List Item} {t : Str}
    {tbl : List ((Str × Str) × PAct)} {i : Nat}
    (hocc : ∃ a, lookupTbl tbl (s, t) = some a ∧ isShiftA a = false)
    (hi : ¬(i = 0)) (hc : completesAt rules i st = true) (ht : t ∈ terms) :
    ∃ e, fillRule rules terms s st tbl i = Except.error e := by
  unfold fillRule
  rw [if_neg hi, if_pos hc]
  exact cellsFold_err terms tbl ht hocc

theorem idxFold_err {α : Type} {rules : List (Rule α)} {terms : List Str}
    {s : Str} {st : List Item} {t : Str} {j : Nat} :
    ∀ (idx : List Nat) (tbl : List ((Str × Str) × PAct)), j ∈ idx → ¬(j = 0) →
      completesAt rules j st = true → t ∈ terms →
      (∃ a, lookupTbl tbl (s, t) = some a ∧ isShiftA a = false) →
      ∃ e, exceptFold (fillRule rules terms s st) tbl idx = Except.error e := by
  intro idx
  induction idx with
  | nil =>
    intro tbl h
    simp at h
  | cons x xs ih =>
    intro tbl hmem hj0 hcj ht hocc
    by_cases hx : x = j
    · subst hx
      rcases fillRule_err hocc hj0 hcj ht with ⟨e, he⟩
      refine ⟨e, ?_⟩
      simp only [exceptFold]
      rw [he]
    · cases hf : fillRule rules terms s st tbl x with
      | error e =>
        refine ⟨e, ?_⟩
        simp only [exceptFold]
        rw [hf]
      | ok tbl' =>
        have hocc' := tpres_NSOcc (fillRule_tpres hf) hocc
        have hmem' : j ∈ xs := by
          rcases List.mem_cons.mp hmem with h' | h'
          · exact absurd h'.symm hx
          · exact h'
        rcases ih tbl' hmem' hj0 hcj ht hocc' with ⟨e, he⟩
        refine ⟨e, ?_⟩
        simp only [exceptFold]
        rw [hf]
        exact he

theorem exceptFold_append {β γ : Type} (f : β → γ → Except Str β) :
    ∀ (l1 l2 : List γ) (b : β),
      exceptFold f b (l1 ++ l2) =
        match exceptFold f b l1 with
        | .ok b1 => exceptFold f b1 l2
        | .error e => .error e := by
  intro l1
  induction l1 with
  | nil =>
    intro l2 b
    simp [exceptFold]
  | cons x xs ih =>
    intro l2 b
    simp only [List.cons_append, exceptFold]
    split
    · rename_i b2 hf
      exact ih l2 b2
    · rfl

theorem range_split (i j n : Nat) (h1 : i < j) (h2 : j < n) :
    ∃ l2, List.range n = List.range i ++ i :: l2 ∧ j ∈ l2 := by
  obtain ⟨m, hm⟩ : ∃ m, n - i = m + 1 := ⟨n - i - 1, by omega⟩
  refine ⟨List.range' (i + 1) m, ?_, ?_⟩
  · rw [List.range_eq_range']
    have h3 := List.range'_append 0 i (n - i) 1
    have h4 : n - i + i = n := by omega
    rw [h4] at h3
    rw [← h3]
    simp only [List.range_eq_range', one_mul, Nat.zero_add]
    congr 1
    rw [hm, List.range'_succ]
  · rw [List.mem_range'_1]
    omega

theorem idxFold_err2 {α : Type} {rules : List (Rule α)} {terms : List Str}
    {s : Str} {st : List Item} {t : Str} {i j : Nat}
    {tbl : List ((Str × Str) × PAct)}
    (hij : i < j) (hjlen : j < rules.length) (hi0 : ¬(i = 0)) (hj0 : ¬(j = 0))
    (hci : completesAt rules i st = true) (hcj : completesAt rules j st = true)
    (ht : t ∈ terms)
    (hR : lookupTbl tbl (s, t) = none ∨
      ∃ a, lookupTbl tbl (s, t) = some a ∧ isShiftA a = false) :
    ∃ e, exceptFold (fillRule rules terms s st) tbl (List.range rules.length) =
      Except.error e := by
  obtain ⟨l2, hsplit, hjmem⟩ := range_split i j rules.length hij hjlen
  rw [hsplit, exceptFold_append]
  cases hfa : exceptFold (fillRule rules terms s st) tbl (List.range i) with
  | error e => exact ⟨e, rfl⟩
  | ok tb1 =>
    have hR1 : lookupTbl tb1 (s, t) = none ∨
        ∃ a, lookupTbl tb1 (s, t) = some a ∧ isShiftA a = false :=
      exceptFold_rel _
        (fun a b =>
          (lookupTbl a (s, t) = none ∨
            ∃ v, lookupTbl a (s, t) = some v ∧ isShiftA v = false) →
          (lookupTbl b (s, t) = none ∨
            ∃ v, lookupTbl b (s, t) = some v ∧ isShiftA v = false))
        (fun _ hh => hh) (fun _ _ _ h1 h2 hh => h2 (h1 hh))
        (fun b x b2 hf hh => fillRule_R hf hh) (List.range i) tbl tb1 hfa hR
    simp only [exceptFold]
    cases hfi : fillRule rules terms s st tb1 i with
    | error e => exact ⟨e, rfl⟩
    | ok tb2 =>
      have hocc := fillRule_estab hfi hi0 hci ht hR1
      rcases idxFold_err l2 tb2 hjmem hj0 hcj ht hocc with ⟨e, he⟩
      exact ⟨e, he⟩

/-- C5: confirmed (contrapositive form).  If grammar construction succeeds
although some state contains the completed items of two distinct non-start
rules, then every seen-terminal cell of that state already held a Shift after
the goto-graph phase: whenever a Reduce targets a cell holding anything other
than a Shift — the cell another completing rule just filled, or an Accept —
`BuildItems` fails fatally (the `.error` outcome, Go's panic) rather than
overwriting or keeping one of the two conflicting actions. -/
theorem claimC5 {α : Type} (rules : List (Rule α)) (fuel : Nat) (tb : Tables)
    (s : Str) (st : List Item) (i j : Nat) (t : Str)
    (hok : buildTables fuel rules = Except.ok tb)
    (hmem : (s, st) ∈ (phase1 fuel rules).tbl.statesL)
    (h1i : 1 ≤ i) (hij : i < j) (hjlen : j < rules.length)
    (hci : completesAt rules i st = true) (hcj : completesAt rules j st = true)
    (ht : t ∈ termsOf (phase1 fuel rules).tbl.act) :
    ∃ s2, lookupTbl (phase1 fuel rules).tbl.act (s, t) =
      some (PAct.shift s2) := by
  by_contra hcon
  push_neg at hcon
  have hR : lookupTbl (phase1 fuel rules).tbl.act (s, t) = none ∨
      ∃ a, lookupTbl (phase1 fuel rules).tbl.act (s, t) = some a ∧
        isShiftA a = false := by
    rcases hl : lookupTbl (phase1 fuel rules).tbl.act (s, t) with _ | a
    · exact Or.inl rfl
    · right
      refine ⟨a, rfl, ?_⟩
      cases a with
      | shift k => exact absurd hl (hcon k)
      | reduce m => rfl
      | accept => rfl
  simp only [buildTables] at hok
  rcases hre : reduceFill rules (phase1 fuel rules).tbl.statesL
      (termsOf (phase1 fuel rules).tbl.act) (phase1 fuel rules).tbl.act
    with e | act2
  · rw [hre] at hok
    simp only [Except.map] at hok
    exact absurd hok (by simp)
  · obtain ⟨sa, sb, hsl⟩ := List.append_of_mem hmem
    unfold reduceFill at hre
    rw [hsl, exceptFold_append] at hre
    cases hfa : exceptFold
        (fun tb2 st2 =>
          exceptFold
            (fillRule rules (termsOf (phase1 fuel rules).tbl.act) st2.1 st2.2)
            tb2 (List.range rules.length))
        (phase1 fuel rules).tbl.act sa with
    | error e2 =>
      rw [hfa] at hre
      simp at hre
    | ok tb1 =>
      rw [hfa] at hre
      have hR1 : lookupTbl tb1 (s, t) = none ∨
          ∃ a, lookupTbl tb1 (s, t) = some a ∧ isShiftA a = false :=
        exceptFold_rel _
          (fun a b =>
            (lookupTbl a (s, t) = none ∨
              ∃ v, lookupTbl a (s, t) = some v ∧ isShiftA v = false) →
            (lookupTbl b (s, t) = none ∨
              ∃ v, lookupTbl b (s, t) = some v ∧ isShiftA v = false))
          (fun _ hh => hh) (fun _ _ _ ha hb hh => hb (ha hh))
          (fun b x b2 hf hh =>
            exceptFold_rel _
              (fun a b =>
                (lookupTbl a (s, t) = none ∨
                  ∃ v, lookupTbl a (s, t) = some v ∧ isShiftA v = false) →
                (lookupTbl b (s, t) = none ∨
                  ∃ v, lookupTbl b (s, t) = some v ∧ isShiftA v = false))
              (fun _ hh2 => hh2) (fun _ _ _ ha hb hh2 => hb (ha hh2))
              (fun b3 x2 b4 hf2 hh2 => fillRule_R hf2 hh2)
              (List.range rules.length) b b2 hf hh)
          sa (phase1 fuel rules).tbl.act tb1 hfa hR
      simp only [exceptFold] at hre
      split at hre
      · rename_i tb2 hfs
        rcases idxFold_err2 hij hjlen (by omega) (by omega) hci hcj ht hR1
          with ⟨e2, he2⟩
        rw [he2] at hfs
        exact absurd hfs (by simp)
      · simp at hre

/-- C5 witness: in `rules5x` construction succeeds while the state reached
after `&a` completes both `S -> &a` (rule 1) and `S2 -> &a` (rule 2); as the
theorem forces, its `&a` cell holds a pre-existing Shift. -/
theorem claimC5_witness :
    ∃ s2, lookupTbl (phase1 30 rules5x).tbl.act (stateString st5x, strOf "&a") =
      some (PAct.shift s2) :=
  claimC5 rules5x 30 tb5x (stateString st5x) st5x 1 2 (strOf "&a") rfl
    (by decide) (by decide) (by decide) (by decide) (by decide) (by decide)
    (by decide)


end LRSpec
